import Mathlib

/-!
# Verification of the gbdc CNF analyzer core

A shallow embedding, in Lean 4, of the core of the gbdc static analyzer for
DIMACS-CNF formulas: the Weisfeiler-Leman (WL) color-refinement hasher
(`src/identify/ISOHash2.h`), the CNF storage parser
(`src/util/PointerlessCNFFormula.h`, `src/util/CNFFormula.h`) and the gate
recognizer (`src/gates/GateAnalyzer.h`, `src/gates/GateFormula.h`),
together with theorems checking the specification's claims against the code.

Machine integers (the `Hash` type, `std::uint32_t`/`std::uint64_t`) are
modelled as `Nat` with explicit `% 2 ^ W` where the code can overflow.
The hash primitives (XXH3 / MD5, external libraries) are abstract function
parameters, one per C++ instantiation of the `hash<T>` template, following
the spec's own contract ("the design does not depend on which").
-/

namespace Gbdc

/-! ## Literals

Modelled from the spec: `SolverTypes.h` is not under `src/`; spec section 3
fixes the representation ("A literal has an index `2v+s` where `s ∈ {0,1}`
is the sign bit (0 positive, 1 negative)"), which matches every use site
(`lit.var()`, `lit.sign()`, `~lit`, `reinterpret_cast` color indexing). -/

/- A literal is represented directly by its index `2v + s` as a `Nat`
(spec section 3); an alias is avoided so that arithmetic automation sees
plain `Nat` terms. -/

/-- `lit.var()`: the variable of a literal. -/
def litVar (l : Nat) : Nat := l / 2

/-- `lit.sign()` as a number: `0` positive, `1` negative. -/
def litSign (l : Nat) : Nat := l % 2

/-- `Lit(var, sign)`: build a literal from variable and sign bit. -/
def mkLit (v : Nat) (s : Nat) : Nat := 2 * v + s % 2

/-- `~lit`: negation flips the sign bit of the index. -/
def negL (l : Nat) : Nat := if l % 2 = 0 then l + 1 else l - 1

theorem negL_negL (l : Nat) : negL (negL l) = l := by
  unfold negL
  split_ifs <;> omega

theorem litVar_negL (l : Nat) : litVar (negL l) = litVar l := by
  unfold negL litVar
  split_ifs <;> omega

/-! ## Hash combining (spec section 4.5, claim C2)

Two combiners exist in the source:
* the carry-wrap variant of the fixed 64-bit hasher
  (`ISOHash2.h`, `combine`, `*acc += in + (*acc > MAX - in)`), and
* the configurable variant (`ISOHash2.h`, configurable hasher, lines
  489-500), which is plain wrapping addition when `ring_prime_offset = 0`
  (the default) and addition in a ring of size `2^W - ring_prime_offset`
  otherwise (only the incoming summand is reduced).
-/

/-- `std::numeric_limits<uint64_t>::max()`. -/
def MAX64 : Nat := 2 ^ 64 - 1

/-- The carry-wrap combiner of the fixed 64-bit WL hasher:
`*acc += in + (*acc > numeric_limits<Hash>::max() - in)`.
All `uint64` arithmetic is modelled by a final `% 2^64` (intermediate
wrap-arounds do not change the result of a sum modulo `2^64`). -/
def combineCW (acc inp : Nat) : Nat :=
  (acc + inp + (if MAX64 - inp < acc then 1 else 0)) % 2 ^ 64

/-- The configurable combiner (`ISOHash2.h` lines 489-500), parameterized by
the compile-time hash width `W` and `ring_prime_offset` `off`.
`ring_size = ((Hash)0) - ring_prime_offset = 2^W - off` in `W`-bit
arithmetic; for `off = 0` the `if constexpr` body is skipped and the
combiner is plain wrapping addition. -/
def combineCfg (off W acc inp : Nat) : Nat :=
  if 0 < off then
    let ringSize := 2 ^ W - off
    let inp' := inp % ringSize
    if ringSize - inp' ≤ acc then acc - (ringSize - inp')
    else (acc + inp') % 2 ^ W
  else (acc + inp) % 2 ^ W

/-- Closed-form description of the carry-wrap combiner on 64-bit inputs:
ordinary sum when it does not overflow, otherwise end-around carry
(subtract `2^64 - 1`). -/
theorem combineCW_eq (a b : Nat) (ha : a < 2 ^ 64) (hb : b < 2 ^ 64) :
    combineCW a b = if a + b ≤ MAX64 then a + b else a + b - MAX64 := by
  unfold combineCW MAX64 at *
  split_ifs <;> omega

theorem combineCW_lt (a b : Nat) (ha : a < 2 ^ 64) (hb : b < 2 ^ 64) :
    combineCW a b < 2 ^ 64 := by
  rw [combineCW_eq a b ha hb]
  unfold MAX64
  split_ifs <;> omega

theorem combineCW_comm (a b : Nat) (ha : a < 2 ^ 64) (hb : b < 2 ^ 64) :
    combineCW a b = combineCW b a := by
  rw [combineCW_eq a b ha hb, combineCW_eq b a hb ha]
  split_ifs <;> omega

theorem combineCW_assoc (a b c : Nat)
    (ha : a < 2 ^ 64) (hb : b < 2 ^ 64) (hc : c < 2 ^ 64) :
    combineCW (combineCW a b) c = combineCW a (combineCW b c) := by
  have hab := combineCW_lt a b ha hb
  have hbc := combineCW_lt b c hb hc
  rw [combineCW_eq a b ha hb] at *
  rw [combineCW_eq b c hb hc] at *
  rw [combineCW_eq _ c hab hc, combineCW_eq a _ ha hbc]
  unfold MAX64 at *
  split_ifs <;> omega

theorem combineCW_zero (a : Nat) (ha : a < 2 ^ 64) : combineCW a 0 = a := by
  rw [combineCW_eq a 0 ha (by norm_num)]
  unfold MAX64
  split_ifs <;> omega

theorem combineCW_eq_zero_iff (a b : Nat) (ha : a < 2 ^ 64) (hb : b < 2 ^ 64) :
    combineCW a b = 0 ↔ a = 0 ∧ b = 0 := by
  rw [combineCW_eq a b ha hb]
  unfold MAX64
  split_ifs <;> omega

theorem combineCfg_zero_off_comm (W a b : Nat) :
    combineCfg 0 W a b = combineCfg 0 W b a := by
  simp [combineCfg, Nat.add_comm]

theorem combineCfg_zero_off_assoc (W a b c : Nat) :
    combineCfg 0 W (combineCfg 0 W a b) c = combineCfg 0 W a (combineCfg 0 W b c) := by
  simp only [combineCfg, lt_self_iff_false, if_false]
  rw [Nat.mod_add_mod, Nat.add_mod_mod, Nat.add_assoc]

theorem combineCfg_zero_off_id (W a : Nat) (ha : a < 2 ^ W) :
    combineCfg 0 W a 0 = a := by
  simp [combineCfg, Nat.mod_eq_of_lt ha]

/-- CLAIM C2 counterexample: the configurable combiner with the modulo ring
disabled (its default, `ring_prime_offset = 0`, 64-bit) is plain wrapping
addition, so zero arises from the nonzero inputs `1` and `2^64 - 1` —
refuting "combine(a,b) = 0 only when a = 0 and b = 0" for that combiner. -/
theorem combine_zero_from_nonzero :
    combineCfg 0 64 1 (2 ^ 64 - 1) = 0 ∧ ¬((1 : Nat) = 0 ∧ (2 ^ 64 - 1 : Nat) = 0) := by
  constructor
  · show (1 + (2 ^ 64 - 1)) % 2 ^ 64 = 0
    norm_num
  · norm_num

/-- CLAIM C2 (amended): for all 64-bit values `a, b, c`, the carry-wrap
combiner is commutative and associative, has identity `0`, and yields `0`
only when both inputs are `0`; the configurable combiner with the ring
disabled (the default) is commutative and associative with identity `0`
(but, per the counterexample, can yield zero from nonzero inputs). -/
theorem combine_properties (a b c : Nat)
    (ha : a < 2 ^ 64) (hb : b < 2 ^ 64) (hc : c < 2 ^ 64) :
    combineCW a b = combineCW b a ∧
    combineCW (combineCW a b) c = combineCW a (combineCW b c) ∧
    combineCW a 0 = a ∧
    (combineCW a b = 0 ↔ a = 0 ∧ b = 0) ∧
    combineCfg 0 64 a b = combineCfg 0 64 b a ∧
    combineCfg 0 64 (combineCfg 0 64 a b) c = combineCfg 0 64 a (combineCfg 0 64 b c) ∧
    combineCfg 0 64 a 0 = a :=
  ⟨combineCW_comm a b ha hb, combineCW_assoc a b c ha hb hc, combineCW_zero a ha,
   combineCW_eq_zero_iff a b ha hb, combineCfg_zero_off_comm 64 a b,
   combineCfg_zero_off_assoc 64 a b c, combineCfg_zero_off_id 64 a ha⟩

/-- Witness for `combine_properties` at `a = 1`, `b = 2`, `c = 3`. -/
theorem combine_properties_witness :
    (1 : Nat) < 2 ^ 64 ∧ (2 : Nat) < 2 ^ 64 ∧ (3 : Nat) < 2 ^ 64 ∧
    (combineCW 1 2 = combineCW 2 1 ∧
     combineCW (combineCW 1 2) 3 = combineCW 1 (combineCW 2 3) ∧
     combineCW 1 0 = 1 ∧
     (combineCW 1 2 = 0 ↔ (1 : Nat) = 0 ∧ (2 : Nat) = 0) ∧
     combineCfg 0 64 1 2 = combineCfg 0 64 2 1 ∧
     combineCfg 0 64 (combineCfg 0 64 1 2) 3 = combineCfg 0 64 1 (combineCfg 0 64 2 3) ∧
     combineCfg 0 64 1 0 = 1) :=
  ⟨by norm_num, by norm_num, by norm_num,
   combine_properties 1 2 3 (by norm_num) (by norm_num) (by norm_num)⟩

/-! ## The configurable Weisfeiler-Leman hasher (`ISOHash2.h`, configurable
variant, lines 427-594)

The hash primitives (`hash<T>`, instantiated with XXH3 or MD5 from external
libraries) are abstract function parameters, one per instantiated argument
type. The two `ColorFunction`s are modelled as total functions from the
variable index to its `LitColors` pair `(p, n)`; the literal-indexed view
produced by the `reinterpret_cast` in `ColorFunction::operator()` maps the
even literal `2v` to the `p` field and the odd literal `2v+1` to `n`. -/

/-- Compile-time configuration (`hash_size`, `ring_prime_offset`), runtime
configuration (`WLHRuntimeConfig`) and abstract hash primitives of the
configurable WL hasher. `hPair` models `hash<LitColors>` (fields `p` then
`n`), `hSize` models `hash<unsigned>` of a clause size, `hOne` models
`hash<Hash>` (the clause rehash). -/
structure WLParams where
  W : Nat
  off : Nat
  hPair : Nat → Nat → Nat
  hSize : Nat → Nat
  hOne : Nat → Nat
  depth : Nat
  crossReferenceLiterals : Bool
  rehashClauses : Bool
  optimizeFirstIteration : Bool
  firstProgressCheckIteration : Nat

/-- A parsed CNF: the (normalized) variable count and the clause sequence in
iteration order, each clause a list of literal indices. -/
structure CNFData where
  nVars : Nat
  clauses : List (List Nat)

/-- `ColorFunction`: one `(p, n)` hash pair per variable. -/
abbrev Colors := Nat → Nat × Nat

/-- `ColorFunction::operator()(Lit)`: the flat `Hash` array view. -/
def colorAt (c : Colors) (l : Nat) : Nat :=
  if l % 2 = 0 then (c (l / 2)).1 else (c (l / 2)).2

/-- Write through the flat view at literal index `l`. -/
def updColor (c : Colors) (l : Nat) (h : Nat) : Colors :=
  fun v =>
    if v = l / 2 then (if l % 2 = 0 then (h, (c v).2) else ((c v).1, h))
    else c v

/-- `hash_sum`: fold the configurable combiner over `f` of each element,
starting from `Hash h = 0`. -/
def hashSum (P : WLParams) (f : α → Nat) (xs : List α) : Nat :=
  xs.foldl (fun h t => combineCfg P.off P.W h (f t)) 0

/-- `LitColors::cross_reference` applied to every variable's pair:
`p ← hash({p,n})`, `n ← hash({n,p})`. -/
def crossRefColors (P : WLParams) (c : Colors) : Colors :=
  fun v => (P.hPair (c v).1 (c v).2, P.hPair (c v).2 (c v).1)

/-- `LitColors::variable_hash`: flip the copy when `n > p`, then hash it
(so the result is symmetric in the two polarities). -/
def varHashPair (P : WLParams) (pr : Nat × Nat) : Nat :=
  if pr.1 < pr.2 then P.hPair pr.2 pr.1 else P.hPair pr.1 pr.2

/-- The mutable hasher state: the two color functions, the iteration counter
and `previous_unique_hashes` (`unique_hashes` itself is empty at every
progress-check entry and therefore needs no field). -/
structure WLState where
  c0 : Colors
  c1 : Colors
  iteration : Nat
  prevUnique : Nat

/-- `old_color()`: `color_functions[iteration % 2]`. -/
def oldColor (st : WLState) : Colors :=
  if st.iteration % 2 = 0 then st.c0 else st.c1

def setOldColor (st : WLState) (c : Colors) : WLState :=
  if st.iteration % 2 = 0 then { st with c0 := c } else { st with c1 := c }

/-- `new_color()`: `color_functions[(iteration + 1) % 2]`. -/
def newColor (st : WLState) : Colors :=
  if st.iteration % 2 = 0 then st.c1 else st.c0

def setNewColor (st : WLState) (c : Colors) : WLState :=
  if st.iteration % 2 = 0 then { st with c1 := c } else { st with c0 := c }

/-- `in_optimized_iteration()`. -/
def inOptimized (P : WLParams) (st : WLState) : Bool :=
  st.iteration = 0 && P.optimizeFirstIteration

/-- `cross_reference()` (the hasher method): early-out unless
`cross_reference_literals` is set and we are not in the optimized first
iteration; otherwise rewrite the old color function in place. -/
def crossReference (P : WLParams) (st : WLState) : WLState :=
  if !P.crossReferenceLiterals || inOptimized P st then st
  else setOldColor st (crossRefColors P (oldColor st))

/-- `clause_hash`: combine the old colors of the clause's literals,
rehashing once if `rehash_clauses` is set. -/
def clauseHash (P : WLParams) (c : Colors) (cl : List Nat) : Nat :=
  let h := hashSum P (fun l => colorAt c l) cl
  if P.rehashClauses then P.hOne h else h

/-- `combine(&new_color()(lit), clh)` for every literal of one clause. -/
def accumClause (P : WLParams) (nc : Colors) (clh : Nat) (cl : List Nat) : Colors :=
  cl.foldl (fun nc l => updColor nc l (combineCfg P.off P.W (colorAt nc l) clh)) nc

/-- The clause loop of `iteration_step`: each clause's hash (a function of
the old, already cross-referenced colors only) is combined into the new
color of each of its literals. -/
def accumAll (P : WLParams) (clh : List Nat → Nat) (nc : Colors)
    (cls : List (List Nat)) : Colors :=
  cls.foldl (fun nc cl => accumClause P nc (clh cl) cl) nc

/-- The per-clause hash selected inside the loop of `iteration_step`:
`hash((unsigned) cl.size())` in the optimized first iteration, the real
`clause_hash` otherwise. -/
def clhFun (P : WLParams) (st1 : WLState) (cl : List Nat) : Nat :=
  if inOptimized P st1 then P.hSize cl.length else clauseHash P (oldColor st1) cl

/-- `iteration_step()`: guarded cross-reference, clause folding into the new
color function (which is *not* reset and still holds the values of two
iterations ago, as in the source), then `++iteration`. -/
def iterationStep (P : WLParams) (F : CNFData) (st : WLState) : WLState :=
  let st1 := crossReference P st
  let nc := accumAll P (clhFun P st1) (newColor st1) F.clauses
  let st2 := setNewColor st1 nc
  { st2 with iteration := st2.iteration + 1 }

/-- The list `lc.variable_hash()` over the color vector, in variable order. -/
def variableHashes (P : WLParams) (F : CNFData) (c : Colors) : List Nat :=
  (List.range F.nVars).map (fun v => varHashPair P (c v))

/-- `variable_hash()`: pair-hash sum when `cross_reference_literals` is set,
otherwise the raw combine over all `2·nVars` literal colors. -/
def variableHashFinal (P : WLParams) (F : CNFData) (st : WLState) : Nat :=
  if P.crossReferenceLiterals then
    hashSum P id (variableHashes P F (oldColor st))
  else
    hashSum P (fun l => colorAt (oldColor st) l) (List.range (2 * F.nVars))

/-- `cnf_hash()`: a final guarded cross-reference, then combine the clause
hashes of all clauses. -/
def cnfHashFinal (P : WLParams) (F : CNFData) (st : WLState) : Nat :=
  let st1 := crossReference P st
  hashSum P (fun cl => clauseHash P (oldColor st1) cl) F.clauses

/-- The hash value accumulated by `check_progress` (the combine over
`lc.variable_hash()` of every variable). -/
def checkVh (P : WLParams) (F : CNFData) (st : WLState) : Nat :=
  hashSum P id (variableHashes P F (oldColor st))

/-- `unique_hashes.size()` at the end of a progress check: the number of
distinct per-variable hashes. -/
def distinctCount (P : WLParams) (F : CNFData) (st : WLState) : Nat :=
  (variableHashes P F (oldColor st)).dedup.length

/-- `check_progress()`: skipped while `iteration <
first_progress_check_iteration`; returns the variable hash when the
distinct count did not grow past `previous_unique_hashes`, else records the
new count and yields nothing. -/
def checkProgress (P : WLParams) (F : CNFData) (st : WLState) :
    Option Nat × WLState :=
  if st.iteration < P.firstProgressCheckIteration then (none, st)
  else if distinctCount P F st ≤ st.prevUnique then (some (checkVh P F st), st)
  else (none, { st with prevUnique := distinctCount P F st })

/-- `run()`: the refinement loop `while (iteration < depth / 2)`, with the
remaining budget `depth / 2 - iteration` made explicit as fuel
(`iteration` grows by one per pass, so the loop condition is exactly
`fuel > 0`). Returns the hash together with the loop-exit state. -/
def runAux (P : WLParams) (F : CNFData) : Nat → WLState → Nat × WLState
  | 0, st =>
    ((if P.depth % 2 = 0 then variableHashFinal P F st else cnfHashFinal P F st), st)
  | fuel + 1, st =>
    match (checkProgress P F st).1 with
    | some vh => (vh, st)
    | none => runAux P F fuel (iterationStep P F (checkProgress P F st).2)

/-- Initial hasher state: both color vectors all `(1, 1)`, `iteration = 0`,
`previous_unique_hashes = 1`. -/
def initState : WLState :=
  { c0 := fun _ => (1, 1), c1 := fun _ => (1, 1), iteration := 0, prevUnique := 1 }

def wlRun (P : WLParams) (F : CNFData) : Nat × WLState :=
  runAux P F (P.depth / 2) initState

/-- The Weisfeiler-Leman hash of a formula (the value `run()` returns). -/
def wlHash (P : WLParams) (F : CNFData) : Nat := (wlRun P F).1

/-- One pass of the run loop: the bookkeeping effect of a non-converged
progress check followed by `iteration_step`. -/
def passStep (P : WLParams) (F : CNFData) (st : WLState) : WLState :=
  iterationStep P F (checkProgress P F st).2

/-- The hasher state after `k` passes of the run loop. -/
def stateAfter (P : WLParams) (F : CNFData) (k : Nat) : WLState :=
  (passStep P F)^[k] initState

/-- The convergence condition tested by `check_progress`. -/
def converged (P : WLParams) (F : CNFData) (st : WLState) : Prop :=
  P.firstProgressCheckIteration ≤ st.iteration ∧
    distinctCount P F st ≤ st.prevUnique

theorem checkProgress_of_converged (P : WLParams) (F : CNFData) (st : WLState)
    (h : converged P F st) :
    checkProgress P F st = (some (checkVh P F st), st) := by
  unfold checkProgress
  rw [if_neg (Nat.not_lt.mpr h.1), if_pos h.2]

theorem checkProgress_fst_of_not_converged (P : WLParams) (F : CNFData)
    (st : WLState) (h : ¬ converged P F st) :
    (checkProgress P F st).1 = none := by
  unfold checkProgress converged at *
  split_ifs with h1 h2
  · rfl
  · exact absurd ⟨Nat.not_lt.mp h1, h2⟩ h
  · rfl

theorem crossReference_iteration (P : WLParams) (st : WLState) :
    (crossReference P st).iteration = st.iteration := by
  unfold crossReference setOldColor
  split_ifs <;> rfl

theorem setNewColor_iteration (st : WLState) (c : Colors) :
    (setNewColor st c).iteration = st.iteration := by
  unfold setNewColor
  split_ifs <;> rfl

theorem iterationStep_iteration (P : WLParams) (F : CNFData) (st : WLState) :
    (iterationStep P F st).iteration = st.iteration + 1 := by
  unfold iterationStep
  simp only [setNewColor_iteration, crossReference_iteration]

theorem checkProgress_snd_iteration (P : WLParams) (F : CNFData) (st : WLState) :
    (checkProgress P F st).2.iteration = st.iteration := by
  unfold checkProgress
  split_ifs <;> rfl

theorem passStep_iteration (P : WLParams) (F : CNFData) (st : WLState) :
    (passStep P F st).iteration = st.iteration + 1 := by
  unfold passStep
  rw [iterationStep_iteration, checkProgress_snd_iteration]

theorem stateAfter_iteration (P : WLParams) (F : CNFData) (k : Nat) :
    (stateAfter P F k).iteration = k := by
  induction k with
  | zero => rfl
  | succ n ih =>
    unfold stateAfter at *
    rw [Function.iterate_succ_apply', passStep_iteration, ih]

theorem setNewColor_prevUnique (st : WLState) (c : Colors) :
    (setNewColor st c).prevUnique = st.prevUnique := by
  unfold setNewColor; split_ifs <;> rfl

theorem crossReference_prevUnique (P : WLParams) (st : WLState) :
    (crossReference P st).prevUnique = st.prevUnique := by
  unfold crossReference setOldColor; split_ifs <;> rfl

theorem iterationStep_prevUnique (P : WLParams) (F : CNFData) (st : WLState) :
    (iterationStep P F st).prevUnique = st.prevUnique := by
  unfold iterationStep
  simp only [setNewColor_prevUnique, crossReference_prevUnique]

theorem checkProgress_snd_prevUnique (P : WLParams) (F : CNFData) (st : WLState) :
    (checkProgress P F st).2.prevUnique =
      if P.firstProgressCheckIteration ≤ st.iteration ∧
          ¬ distinctCount P F st ≤ st.prevUnique
      then distinctCount P F st else st.prevUnique := by
  unfold checkProgress
  by_cases h1 : st.iteration < P.firstProgressCheckIteration
  · rw [if_pos h1, if_neg (fun hh => absurd h1 (Nat.not_lt.mpr hh.1))]
  · rw [if_neg h1]
    by_cases h2 : distinctCount P F st ≤ st.prevUnique
    · rw [if_pos h2, if_neg (fun hh => hh.2 h2)]
    · rw [if_neg h2, if_pos ⟨Nat.not_lt.mp h1, h2⟩]

theorem stateAfter_succ (P : WLParams) (F : CNFData) (t : Nat) :
    stateAfter P F (t + 1) = passStep P F (stateAfter P F t) := by
  unfold stateAfter
  rw [Function.iterate_succ_apply']

/-- `previous_unique_hashes` bookkeeping: along the run loop, the value
carried into pass `t+1` is the distinct count observed at the pass-`t`
check if that check ran and found strict growth, else it carries over. -/
theorem stateAfter_prevUnique (P : WLParams) (F : CNFData) (t : Nat) :
    (stateAfter P F (t + 1)).prevUnique =
      if P.firstProgressCheckIteration ≤ t ∧
          ¬ distinctCount P F (stateAfter P F t) ≤ (stateAfter P F t).prevUnique
      then distinctCount P F (stateAfter P F t)
      else (stateAfter P F t).prevUnique := by
  rw [stateAfter_succ]
  unfold passStep
  rw [iterationStep_prevUnique, checkProgress_snd_prevUnique, stateAfter_iteration]

/-- Unrolling of the run loop from an arbitrary state: either some pass
`t < fuel` is the first whose progress check converges and the loop
returns that check's variable hash from that state, or no check within the
budget converges and the loop exhausts its fuel, returning the final
parity-selected hash of the state after all passes. -/
theorem runAux_characterization (P : WLParams) (F : CNFData) :
    ∀ (fuel : Nat) (st : WLState),
    (∃ t, t < fuel ∧ converged P F ((passStep P F)^[t] st) ∧
       (∀ u, u < t → ¬ converged P F ((passStep P F)^[u] st)) ∧
       runAux P F fuel st =
         (checkVh P F ((passStep P F)^[t] st), (passStep P F)^[t] st))
  ∨ ((∀ t, t < fuel → ¬ converged P F ((passStep P F)^[t] st)) ∧
     runAux P F fuel st =
       ((if P.depth % 2 = 0 then variableHashFinal P F ((passStep P F)^[fuel] st)
         else cnfHashFinal P F ((passStep P F)^[fuel] st)),
        (passStep P F)^[fuel] st)) := by
  intro fuel
  induction fuel with
  | zero =>
    intro st
    right
    exact ⟨fun t ht => absurd ht (Nat.not_lt_zero t), rfl⟩
  | succ n ih =>
    intro st
    by_cases hc : converged P F st
    · left
      refine ⟨0, Nat.succ_pos n, by simpa using hc, fun u hu => absurd hu (Nat.not_lt_zero u), ?_⟩
      have hcp := checkProgress_of_converged P F st hc
      simp only [runAux, hcp, Function.iterate_zero_apply]
    · have h1 := checkProgress_fst_of_not_converged P F st hc
      have hstep : runAux P F (n + 1) st = runAux P F n (passStep P F st) := by
        simp only [runAux, h1, passStep]
      rcases ih (passStep P F st) with ⟨t, ht, hconv, hmin, heq⟩ | ⟨hall, heq⟩
      · left
        refine ⟨t + 1, Nat.succ_lt_succ ht, ?_, ?_, ?_⟩
        · rw [Function.iterate_succ_apply]; exact hconv
        · intro u hu
          cases u with
          | zero => simpa using hc
          | succ u' => rw [Function.iterate_succ_apply]; exact hmin u' (by omega)
        · rw [hstep, heq, Function.iterate_succ_apply]
      · right
        refine ⟨?_, ?_⟩
        · intro t ht
          cases t with
          | zero => simpa using hc
          | succ t' => rw [Function.iterate_succ_apply]; exact hall t' (by omega)
        · rw [hstep, heq, Function.iterate_succ_apply]

/-- CLAIM C1: the run loop performs at most `⌊depth/2⌋` iteration steps
(the loop-exit iteration counter); before each step, once the counter has
reached `firstProgressCheckIteration`, the progress check computes the
per-variable hashes and their distinct count, and `run` returns that
combined variable hash at the first check whose count does not strictly
exceed the previous bookkeeping value; if no check within the budget
converges, `run` returns the variable hash when `depth` is even and the
CNF hash when `depth` is odd. -/
theorem wl_run_loop_spec (P : WLParams) (F : CNFData) :
    (wlRun P F).2.iteration ≤ P.depth / 2 ∧
    ((∃ t, t < P.depth / 2 ∧
        P.firstProgressCheckIteration ≤ t ∧
        distinctCount P F (stateAfter P F t) ≤ (stateAfter P F t).prevUnique ∧
        (∀ u, u < t → ¬ (P.firstProgressCheckIteration ≤ u ∧
            distinctCount P F (stateAfter P F u) ≤ (stateAfter P F u).prevUnique)) ∧
        wlHash P F = checkVh P F (stateAfter P F t) ∧
        (wlRun P F).2.iteration = t)
     ∨ ((∀ t, t < P.depth / 2 → ¬ (P.firstProgressCheckIteration ≤ t ∧
            distinctCount P F (stateAfter P F t) ≤ (stateAfter P F t).prevUnique)) ∧
        wlHash P F =
          (if P.depth % 2 = 0 then variableHashFinal P F (stateAfter P F (P.depth / 2))
           else cnfHashFinal P F (stateAfter P F (P.depth / 2))) ∧
        (wlRun P F).2.iteration = P.depth / 2)) := by
  have hconv : ∀ t, converged P F (stateAfter P F t) ↔
      (P.firstProgressCheckIteration ≤ t ∧
        distinctCount P F (stateAfter P F t) ≤ (stateAfter P F t).prevUnique) := by
    intro t
    unfold converged
    rw [stateAfter_iteration]
  have hmain := runAux_characterization P F (P.depth / 2) initState
  have hrun : wlRun P F = runAux P F (P.depth / 2) initState := rfl
  have hsa : ∀ t, (passStep P F)^[t] initState = stateAfter P F t := fun t => rfl
  rcases hmain with ⟨t, ht, hcv, hmin, heq⟩ | ⟨hall, heq⟩
  · rw [hsa] at hcv heq
    constructor
    · rw [hrun, heq, stateAfter_iteration]; omega
    · left
      refine ⟨t, ht, (hconv t).mp hcv |>.1, (hconv t).mp hcv |>.2, ?_, ?_, ?_⟩
      · intro u hu hcontra
        exact hmin u hu ((hconv u).mpr hcontra)
      · show (wlRun P F).1 = _
        rw [hrun, heq]
      · rw [hrun, heq, stateAfter_iteration]
  · rw [hsa] at heq
    constructor
    · rw [hrun, heq, stateAfter_iteration]
    · right
      refine ⟨?_, ?_, ?_⟩
      · intro t ht hcontra
        exact hall t ht ((hconv t).mpr hcontra)
      · show (wlRun P F).1 = _
        rw [hrun, heq]
      · rw [hrun, heq, stateAfter_iteration]

/-! ## Algebraic facts about `hash_sum` -/

theorem combineCfg_eq_mod (off W a b : Nat) (hm : 0 < 2 ^ W - off)
    (ha : a < 2 ^ W - off) :
    combineCfg off W a b = (a + b % (2 ^ W - off)) % (2 ^ W - off) := by
  have hb : b % (2 ^ W - off) < 2 ^ W - off := Nat.mod_lt _ hm
  have hWle : 2 ^ W - off ≤ 2 ^ W := Nat.sub_le _ _
  unfold combineCfg
  by_cases hoff : 0 < off
  · rw [if_pos hoff]
    simp only []
    by_cases hov : 2 ^ W - off - b % (2 ^ W - off) ≤ a
    · rw [if_pos hov]
      have h1 : (a + b % (2 ^ W - off)) % (2 ^ W - off)
          = a + b % (2 ^ W - off) - (2 ^ W - off) := by
        rw [Nat.mod_eq_sub_mod
            (show a + b % (2 ^ W - off) ≥ 2 ^ W - off by omega),
          Nat.mod_eq_of_lt
            (show a + b % (2 ^ W - off) - (2 ^ W - off) < 2 ^ W - off by omega)]
      omega
    · rw [if_neg hov]
      have h2 : a + b % (2 ^ W - off) < 2 ^ W - off := by omega
      rw [Nat.mod_eq_of_lt (Nat.lt_of_lt_of_le h2 hWle), Nat.mod_eq_of_lt h2]
  · rw [if_neg hoff]
    have h0 : off = 0 := by omega
    subst h0
    rw [Nat.sub_zero, Nat.add_mod_mod]

theorem foldl_combine_eq_mod (P : WLParams) (hoff : P.off < 2 ^ P.W)
    (f : α → Nat) :
    ∀ (xs : List α) (acc : Nat), acc < 2 ^ P.W - P.off →
      xs.foldl (fun h t => combineCfg P.off P.W h (f t)) acc
        = (acc + (xs.map f).sum) % (2 ^ P.W - P.off) := by
  have hm : 0 < 2 ^ P.W - P.off := by
    have h1 : 0 < 2 ^ P.W := Nat.pos_pow_of_pos _ (by omega)
    omega
  intro xs
  induction xs with
  | nil =>
    intro acc hacc
    simpa using (Nat.mod_eq_of_lt hacc).symm
  | cons x t ih =>
    intro acc hacc
    simp only [List.foldl_cons, List.map_cons, List.sum_cons]
    rw [combineCfg_eq_mod _ _ _ _ hm hacc, ih _ (Nat.mod_lt _ hm)]
    rw [Nat.mod_add_mod, Nat.add_right_comm acc (f x % (2 ^ P.W - P.off)),
      Nat.add_mod_mod, Nat.add_right_comm acc ((t.map f).sum) (f x),
      Nat.add_assoc]

/-- On a valid configuration (`ring_prime_offset < 2^W`), `hash_sum` is the
plain sum of the hashes modulo the ring size (`2^W` when the ring is
disabled) — in particular it is invariant under permutation of the input. -/
theorem hashSum_eq_mod (P : WLParams) (hoff : P.off < 2 ^ P.W) (f : α → Nat)
    (xs : List α) :
    hashSum P f xs = ((xs.map f).sum) % (2 ^ P.W - P.off) := by
  have hm : 0 < 2 ^ P.W - P.off := by
    have h1 : 0 < 2 ^ P.W := Nat.pos_pow_of_pos _ (by omega)
    omega
  unfold hashSum
  rw [foldl_combine_eq_mod P hoff f xs 0 hm, Nat.zero_add]

theorem hashSum_map (P : WLParams) (f : β → Nat) (g : α → β) (xs : List α) :
    hashSum P f (xs.map g) = hashSum P (fun x => f (g x)) xs := by
  unfold hashSum
  rw [List.foldl_map]

theorem hashSum_congr (P : WLParams) {f g : α → Nat} (xs : List α)
    (h : ∀ x ∈ xs, f x = g x) :
    hashSum P f xs = hashSum P g xs := by
  unfold hashSum
  apply List.foldl_ext
  intro a b hb
  rw [h b hb]

/-! ## Claim C3: uniform polarity flip invariance -/

/-- Flip the polarity of every literal whose variable is in the set `S`. -/
def flipLit (S : Nat → Bool) (l : Nat) : Nat :=
  if S (l / 2) then negL l else l

/-- The formula with every occurrence of every variable in `S` flipped
(clause order, clause sizes — and hence the parser's size-grouped
iteration order — are unchanged). -/
def flipCNF (S : Nat → Bool) (F : CNFData) : CNFData :=
  { nVars := F.nVars, clauses := F.clauses.map (List.map (flipLit S)) }

/-- Swap the `(p, n)` pair of every variable in `S`. -/
def flipColors (S : Nat → Bool) (c : Colors) : Colors :=
  fun v => if S v then ((c v).2, (c v).1) else c v

/-- The hasher state reached by the flipped run: both color functions
pair-swapped on `S`, bookkeeping unchanged. -/
def flipState (S : Nat → Bool) (st : WLState) : WLState :=
  { c0 := flipColors S st.c0, c1 := flipColors S st.c1,
    iteration := st.iteration, prevUnique := st.prevUnique }

theorem flipLit_div2 (S : Nat → Bool) (l : Nat) : flipLit S l / 2 = l / 2 := by
  unfold flipLit negL
  split_ifs <;> omega

theorem colorAt_flip (S : Nat → Bool) (c : Colors) (l : Nat) :
    colorAt (flipColors S c) (flipLit S l) = colorAt c l := by
  unfold colorAt flipColors flipLit negL
  by_cases hS : S (l / 2) = true <;> by_cases hp : l % 2 = 0
  · have h1 : ¬ (l + 1) % 2 = 0 := by omega
    have h2 : (l + 1) / 2 = l / 2 := by omega
    rw [if_pos hS, if_pos hp, if_neg h1, h2, if_pos hS, if_pos hp]
  · have h1 : (l - 1) % 2 = 0 := by omega
    have h2 : (l - 1) / 2 = l / 2 := by omega
    rw [if_pos hS, if_neg hp, if_pos h1, h2, if_pos hS, if_neg hp]
  · rw [if_neg hS, if_pos hp, if_pos hp, if_neg hS]
  · rw [if_neg hS, if_neg hp, if_neg hp, if_neg hS]

theorem updColor_flip (S : Nat → Bool) (c : Colors) (l h : Nat) :
    updColor (flipColors S c) (flipLit S l) h = flipColors S (updColor c l h) := by
  funext v
  simp only [updColor, flipColors, flipLit, negL]
  by_cases hS : S (l / 2) = true <;> by_cases hp : l % 2 = 0 <;>
    by_cases hv : v = l / 2
  · have h1 : ¬ (l + 1) % 2 = 0 := by omega
    have h2 : (l + 1) / 2 = l / 2 := by omega
    have hSv : S v = true := by rw [hv]; exact hS
    simp [hS, hp, hv, h1, h2, hSv]
  · have h2 : (l + 1) / 2 = l / 2 := by omega
    simp [hS, hp, hv, h2]
  · have h1 : (l - 1) % 2 = 0 := by omega
    have h2 : (l - 1) / 2 = l / 2 := by omega
    have hSv : S v = true := by rw [hv]; exact hS
    simp [hS, hp, hv, h1, h2, hSv]
  · have h2 : (l - 1) / 2 = l / 2 := by omega
    simp [hS, hp, hv, h2]
  · have hSv : ¬ S v = true := by rw [hv]; exact hS
    simp [hS, hp, hv, hSv]
  · simp [hS, hp, hv]
  · have hSv : ¬ S v = true := by rw [hv]; exact hS
    simp [hS, hp, hv, hSv]
  · simp [hS, hp, hv]

theorem crossRefColors_flip (P : WLParams) (S : Nat → Bool) (c : Colors) :
    crossRefColors P (flipColors S c) = flipColors S (crossRefColors P c) := by
  funext v
  unfold crossRefColors flipColors
  by_cases hS : S v = true
  · rw [if_pos hS, if_pos hS]
  · rw [if_neg hS, if_neg hS]

theorem varHashPair_swap (P : WLParams) (pr : Nat × Nat) :
    varHashPair P (pr.2, pr.1) = varHashPair P pr := by
  rcases pr with ⟨p, n⟩
  unfold varHashPair
  by_cases h1 : n < p <;> by_cases h2 : p < n
  · omega
  · simp [h1, h2]
  · simp [h1, h2]
  · have h3 : p = n := by omega
    subst h3
    simp [h1, h2]

theorem clauseHash_flip (P : WLParams) (S : Nat → Bool) (c : Colors)
    (cl : List Nat) :
    clauseHash P (flipColors S c) (cl.map (flipLit S)) = clauseHash P c cl := by
  unfold clauseHash
  rw [hashSum_map, hashSum_congr P cl (fun x _ => colorAt_flip S c x)]

theorem accumClause_flip (P : WLParams) (S : Nat → Bool) (clh : Nat) :
    ∀ (cl : List Nat) (nc : Colors),
    accumClause P (flipColors S nc) clh (cl.map (flipLit S))
      = flipColors S (accumClause P nc clh cl) := by
  intro cl
  induction cl with
  | nil => intro nc; rfl
  | cons l t ih =>
    intro nc
    simp only [List.map_cons, accumClause, List.foldl_cons] at *
    rw [colorAt_flip, updColor_flip]
    exact ih _

theorem accumAll_flip (P : WLParams) (S : Nat → Bool)
    (clh clh' : List Nat → Nat)
    (hcl : ∀ cl, clh' (cl.map (flipLit S)) = clh cl) :
    ∀ (cls : List (List Nat)) (nc : Colors),
    accumAll P clh' (flipColors S nc) (cls.map (List.map (flipLit S)))
      = flipColors S (accumAll P clh nc cls) := by
  intro cls
  induction cls with
  | nil => intro nc; rfl
  | cons cl t ih =>
    intro nc
    simp only [List.map_cons, accumAll, List.foldl_cons] at *
    rw [hcl, accumClause_flip]
    exact ih _

theorem variableHashes_flip (P : WLParams) (S : Nat → Bool) (F : CNFData)
    (c : Colors) :
    variableHashes P (flipCNF S F) (flipColors S c) = variableHashes P F c := by
  unfold variableHashes
  have h : (fun v => varHashPair P (flipColors S c v))
      = fun v => varHashPair P (c v) := by
    funext v
    unfold flipColors
    by_cases hS : S v = true
    · rw [if_pos hS]
      exact varHashPair_swap P (c v)
    · rw [if_neg hS]
  rw [show (flipCNF S F).nVars = F.nVars from rfl, h]

theorem oldColor_flip (S : Nat → Bool) (st : WLState) :
    oldColor (flipState S st) = flipColors S (oldColor st) := by
  unfold oldColor flipState
  split_ifs <;> rfl

theorem newColor_flip (S : Nat → Bool) (st : WLState) :
    newColor (flipState S st) = flipColors S (newColor st) := by
  unfold newColor flipState
  split_ifs <;> rfl

theorem setOldColor_flip (S : Nat → Bool) (st : WLState) (c : Colors) :
    setOldColor (flipState S st) (flipColors S c) = flipState S (setOldColor st c) := by
  unfold setOldColor flipState
  split_ifs <;> rfl

theorem setNewColor_flip (S : Nat → Bool) (st : WLState) (c : Colors) :
    setNewColor (flipState S st) (flipColors S c) = flipState S (setNewColor st c) := by
  unfold setNewColor flipState
  split_ifs <;> rfl

theorem crossReference_flip (P : WLParams) (S : Nat → Bool) (st : WLState) :
    crossReference P (flipState S st) = flipState S (crossReference P st) := by
  unfold crossReference
  rw [show inOptimized P (flipState S st) = inOptimized P st from rfl]
  split_ifs with h
  · rfl
  · rw [oldColor_flip, crossRefColors_flip, setOldColor_flip]

theorem clhFun_flip (P : WLParams) (S : Nat → Bool) (st1 : WLState)
    (cl : List Nat) :
    clhFun P (flipState S st1) (cl.map (flipLit S)) = clhFun P st1 cl := by
  unfold clhFun
  rw [show inOptimized P (flipState S st1) = inOptimized P st1 from rfl]
  by_cases hopt : inOptimized P st1 = true
  · rw [if_pos hopt, if_pos hopt, List.length_map]
  · rw [if_neg hopt, if_neg hopt, oldColor_flip, clauseHash_flip]

theorem iterationStep_flip (P : WLParams) (S : Nat → Bool) (F : CNFData)
    (st : WLState) :
    iterationStep P (flipCNF S F) (flipState S st)
      = flipState S (iterationStep P F st) := by
  simp only [iterationStep]
  rw [crossReference_flip,
    show (flipCNF S F).clauses = F.clauses.map (List.map (flipLit S)) from rfl,
    newColor_flip,
    accumAll_flip P S (clhFun P (crossReference P st))
      (clhFun P (flipState S (crossReference P st)))
      (clhFun_flip P S (crossReference P st)) F.clauses
      (newColor (crossReference P st)),
    setNewColor_flip]
  rfl

theorem checkVh_flip (P : WLParams) (S : Nat → Bool) (F : CNFData)
    (st : WLState) :
    checkVh P (flipCNF S F) (flipState S st) = checkVh P F st := by
  unfold checkVh
  rw [oldColor_flip, variableHashes_flip]

theorem distinctCount_flip (P : WLParams) (S : Nat → Bool) (F : CNFData)
    (st : WLState) :
    distinctCount P (flipCNF S F) (flipState S st) = distinctCount P F st := by
  unfold distinctCount
  rw [oldColor_flip, variableHashes_flip]

theorem checkProgress_flip (P : WLParams) (S : Nat → Bool) (F : CNFData)
    (st : WLState) :
    checkProgress P (flipCNF S F) (flipState S st)
      = ((checkProgress P F st).1, flipState S (checkProgress P F st).2) := by
  unfold checkProgress
  rw [show (flipState S st).iteration = st.iteration from rfl,
    distinctCount_flip, checkVh_flip,
    show (flipState S st).prevUnique = st.prevUnique from rfl]
  split_ifs <;> rfl

theorem colorAt_even (c : Colors) (v : Nat) : colorAt c (2 * v) = (c v).1 := by
  unfold colorAt
  rw [if_pos (Nat.mul_mod_right 2 v), Nat.mul_div_cancel_left v (by norm_num)]

theorem colorAt_odd (c : Colors) (v : Nat) : colorAt c (2 * v + 1) = (c v).2 := by
  unfold colorAt
  rw [if_neg (show ¬ (2 * v + 1) % 2 = 0 by omega)]
  rw [show (2 * v + 1) / 2 = v by omega]

theorem sum_colors_flip (S : Nat → Bool) (c : Colors) :
    ∀ V, ((List.range (2 * V)).map (fun l => colorAt (flipColors S c) l)).sum
      = ((List.range (2 * V)).map (fun l => colorAt c l)).sum := by
  intro V
  induction V with
  | zero => rfl
  | succ n ih =>
    rw [show 2 * (n + 1) = (2 * n + 1) + 1 by omega, List.range_succ,
      List.range_succ]
    simp only [List.map_append, List.sum_append, List.map_cons, List.map_nil,
      List.sum_cons, List.sum_nil, ih, colorAt_even, colorAt_odd]
    unfold flipColors
    by_cases hS : S n = true
    · rw [if_pos hS]
      omega
    · rw [if_neg hS]

theorem variableHashFinal_flip (P : WLParams) (hoff : P.off < 2 ^ P.W)
    (S : Nat → Bool) (F : CNFData) (st : WLState) :
    variableHashFinal P (flipCNF S F) (flipState S st)
      = variableHashFinal P F st := by
  unfold variableHashFinal
  by_cases hcr : P.crossReferenceLiterals = true
  · rw [if_pos hcr, if_pos hcr, oldColor_flip, variableHashes_flip]
  · rw [if_neg hcr, if_neg hcr, oldColor_flip,
      show (flipCNF S F).nVars = F.nVars from rfl,
      hashSum_eq_mod P hoff _ _, hashSum_eq_mod P hoff _ _, sum_colors_flip]

theorem cnfHashFinal_flip (P : WLParams) (S : Nat → Bool) (F : CNFData)
    (st : WLState) :
    cnfHashFinal P (flipCNF S F) (flipState S st) = cnfHashFinal P F st := by
  unfold cnfHashFinal
  rw [crossReference_flip,
    show (flipCNF S F).clauses = F.clauses.map (List.map (flipLit S)) from rfl,
    hashSum_map]
  apply hashSum_congr
  intro cl _
  rw [oldColor_flip, clauseHash_flip]

theorem runAux_flip (P : WLParams) (hoff : P.off < 2 ^ P.W) (S : Nat → Bool)
    (F : CNFData) :
    ∀ (fuel : Nat) (st : WLState),
    runAux P (flipCNF S F) fuel (flipState S st)
      = ((runAux P F fuel st).1, flipState S (runAux P F fuel st).2) := by
  intro fuel
  induction fuel with
  | zero =>
    intro st
    simp only [runAux]
    rw [variableHashFinal_flip P hoff, cnfHashFinal_flip]
  | succ n ih =>
    intro st
    simp only [runAux]
    rw [checkProgress_flip]
    cases h : (checkProgress P F st).1 with
    | some vh => simp
    | none =>
      simp only []
      rw [iterationStep_flip, ih]

theorem flipState_initState (S : Nat → Bool) : flipState S initState = initState := by
  have hc : flipColors S (fun _ => ((1 : Nat), (1 : Nat))) = fun _ => (1, 1) := by
    funext v
    unfold flipColors
    split_ifs <;> rfl
  simp only [flipState, initState]
  rw [hc]

/-- CLAIM C3: for every valid configuration (`ring_prime_offset < 2^W`),
every formula and every set `S` of variables, flipping every occurrence of
each variable in `S` leaves the WL hash unchanged (for arbitrary hash
primitives). -/
theorem wl_flip_invariance (P : WLParams) (hoff : P.off < 2 ^ P.W)
    (S : Nat → Bool) (F : CNFData) :
    wlHash P (flipCNF S F) = wlHash P F := by
  unfold wlHash wlRun
  conv_lhs => rw [← flipState_initState S]
  rw [runAux_flip P hoff S F (P.depth / 2) initState]

/-- Concrete WL parameters used by evaluation witnesses: 64-bit hashes, no
modulo ring, simple injective-enough stand-ins for the hash primitives. -/
def pDemo : WLParams :=
  { W := 64, off := 0,
    hPair := fun a b => 1 + 3 * a + 5 * b,
    hSize := fun n => 7 + n,
    hOne := fun a => 11 + 13 * a,
    depth := 4, crossReferenceLiterals := true, rehashClauses := true,
    optimizeFirstIteration := false, firstProgressCheckIteration := 3 }

/-- Witness for `wl_flip_invariance`: flipping variable 0 of the formula
`{(x0 ∨ x1)}` with the concrete demo configuration. -/
theorem wl_flip_invariance_witness :
    pDemo.off < 2 ^ pDemo.W ∧
      wlHash pDemo (flipCNF (fun v => v == 0) ⟨2, [[0, 2]]⟩)
        = wlHash pDemo ⟨2, [[0, 2]]⟩ :=
  ⟨by decide, wl_flip_invariance pDemo (by decide) (fun v => v == 0) ⟨2, [[0, 2]]⟩⟩

/-! ## Claim C9: the optimized first iteration -/

/-- The runtime configuration with `optimize_first_iteration` replaced. -/
def setOpt (P : WLParams) (b : Bool) : WLParams :=
  { P with optimizeFirstIteration := b }

theorem colorAt_const (k l : Nat) : colorAt (fun _ => (k, k)) l = k := by
  unfold colorAt
  split_ifs <;> rfl

theorem foldl_const_length (g : Nat → Nat) :
    ∀ (cl1 cl2 : List Nat), cl1.length = cl2.length → ∀ acc : Nat,
      cl1.foldl (fun h _ => g h) acc = cl2.foldl (fun h _ => g h) acc := by
  intro cl1
  induction cl1 with
  | nil =>
    intro cl2 hlen acc
    cases cl2 with
    | nil => rfl
    | cons y t2 => simp at hlen
  | cons x t ih =>
    intro cl2 hlen acc
    cases cl2 with
    | nil => simp at hlen
    | cons y t2 =>
      simp only [List.foldl_cons]
      exact ih t2 (by simpa using hlen) _

/-- CLAIM C9: with `optimize_first_iteration` enabled, iteration 0 skips the
cross-reference (the old colors stay untouched) and folds `hash(|cl|)` as
the clause hash; and this loses no refinement information because in the
unoptimized iteration 0 all literal colors are equal (they are `1`, or all
`hash({1,1})` after the cross-reference), so the clause hashes of any two
clauses of the same size coincide. -/
theorem wl_first_iteration_optimization (P : WLParams) (F : CNFData)
    (cl1 cl2 : List Nat) (hlen : cl1.length = cl2.length) :
    (crossReference (setOpt P true) initState = initState ∧
     iterationStep (setOpt P true) F initState =
       { c0 := fun _ => (1, 1),
         c1 := accumAll (setOpt P true) (fun cl => P.hSize cl.length)
                 (fun _ => (1, 1)) F.clauses,
         iteration := 1, prevUnique := 1 }) ∧
    ((∀ l1 l2, colorAt (oldColor (crossReference (setOpt P false) initState)) l1
        = colorAt (oldColor (crossReference (setOpt P false) initState)) l2) ∧
     clauseHash (setOpt P false)
         (oldColor (crossReference (setOpt P false) initState)) cl1
       = clauseHash (setOpt P false)
         (oldColor (crossReference (setOpt P false) initState)) cl2) := by
  have hskip : crossReference (setOpt P true) initState = initState := by
    unfold crossReference
    rw [show inOptimized (setOpt P true) initState = true from rfl, Bool.or_true,
      if_pos rfl]
  have hcc : ∃ k, oldColor (crossReference (setOpt P false) initState)
      = fun _ => (k, k) := by
    by_cases hcr : P.crossReferenceLiterals = true
    · refine ⟨P.hPair 1 1, ?_⟩
      have hcond : (!(setOpt P false).crossReferenceLiterals
          || inOptimized (setOpt P false) initState) = false := by
        show (!P.crossReferenceLiterals || false) = false
        rw [hcr]
        rfl
      unfold crossReference
      rw [hcond, if_neg Bool.false_ne_true]
      rfl
    · refine ⟨1, ?_⟩
      have hcrf : P.crossReferenceLiterals = false := by
        revert hcr
        cases P.crossReferenceLiterals <;> simp
      have hcond : (!(setOpt P false).crossReferenceLiterals
          || inOptimized (setOpt P false) initState) = true := by
        show (!P.crossReferenceLiterals || false) = true
        rw [hcrf]
        rfl
      unfold crossReference
      rw [hcond, if_pos rfl]
      rfl
  obtain ⟨k, hk⟩ := hcc
  refine ⟨⟨hskip, ?_⟩, ?_, ?_⟩
  · simp only [iterationStep]
    rw [hskip]
    have hclh : clhFun (setOpt P true) initState = fun cl => P.hSize cl.length := by
      funext cl
      unfold clhFun
      rw [show inOptimized (setOpt P true) initState = true from rfl, if_pos rfl]
      rfl
    rw [hclh]
    rfl
  · intro l1 l2
    rw [hk, colorAt_const, colorAt_const]
  · rw [hk]
    unfold clauseHash
    rw [hashSum_congr (setOpt P false) cl1 (fun x _ => colorAt_const k x),
      hashSum_congr (setOpt P false) cl2 (fun x _ => colorAt_const k x)]
    have hsum : hashSum (setOpt P false) (fun _ => k) cl1
        = hashSum (setOpt P false) (fun _ => k) cl2 := by
      unfold hashSum
      exact foldl_const_length
        (fun h => combineCfg (setOpt P false).off (setOpt P false).W h k)
        cl1 cl2 hlen 0
    rw [hsum]

/-- Witness for `wl_first_iteration_optimization` at the demo configuration
with the equal-sized clauses `[0, 2]` and `[1, 3]`. -/
theorem wl_first_iteration_optimization_witness :
    ([0, 2] : List Nat).length = ([1, 3] : List Nat).length ∧
    ((crossReference (setOpt pDemo true) initState = initState ∧
      iterationStep (setOpt pDemo true) ⟨2, [[0, 2]]⟩ initState =
        { c0 := fun _ => (1, 1),
          c1 := accumAll (setOpt pDemo true) (fun cl => pDemo.hSize cl.length)
                  (fun _ => (1, 1)) (⟨2, [[0, 2]]⟩ : CNFData).clauses,
          iteration := 1, prevUnique := 1 }) ∧
     ((∀ l1 l2, colorAt (oldColor (crossReference (setOpt pDemo false) initState)) l1
         = colorAt (oldColor (crossReference (setOpt pDemo false) initState)) l2) ∧
      clauseHash (setOpt pDemo false)
          (oldColor (crossReference (setOpt pDemo false) initState)) [0, 2]
        = clauseHash (setOpt pDemo false)
          (oldColor (crossReference (setOpt pDemo false) initState)) [1, 3])) :=
  ⟨by decide,
   wl_first_iteration_optimization pDemo ⟨2, [[0, 2]]⟩ [0, 2] [1, 3] (by decide)⟩

/-! ## The PointerlessCNFFormula parser
(`PointerlessCNFFormula.h`, `readDimacsFromFile` lines 121-146 and
`normalizeVariableNames` lines 96-108)

The DIMACS tokenizer (`StreamBuffer`) is out of scope per the spec; the
model starts from the already-tokenized clauses, each literal in index
form. `readDimacsFromFile` stores each clause's literals flat in the
bucket of its length (no duplicate or tautology elimination of any kind)
and unconditionally calls `normalizeVariableNames` at the end; clause
iteration slices the buckets back into clauses, so the literals it yields
are exactly the bucket entries. -/

/-- One clause insertion of `readDimacsFromFile`: grow
`clause_length_literals` to `|cl| + 1` buckets when needed, then append
the clause's literals to the bucket of its length. -/
def insertBucket (bs : List (List Nat)) (cl : List Nat) : List (List Nat) :=
  let bs' := if bs.length ≤ cl.length
             then bs ++ List.replicate (cl.length + 1 - bs.length) []
             else bs
  bs'.set cl.length (bs'.getD cl.length [] ++ cl)

def buildBuckets (raw : List (List Nat)) : List (List Nat) :=
  raw.foldl insertBucket []

/-- The renaming state of `normalizeVariableNames`: the partial `name`
array and the `max` counter. -/
structure NormSt where
  name : Nat → Option Nat
  max : Nat

/-- One literal of the `normalizeVariableNames` loop:
`if (name[lit.var()] == empty) name[lit.var()] = max++;
lit = Lit(name[lit.var()], lit.sign());`. -/
def normLit (st : NormSt) (l : Nat) : NormSt × Nat :=
  match st.name (l / 2) with
  | some m => (st, 2 * m + l % 2)
  | none =>
    ({ name := fun x => if x = l / 2 then some st.max else st.name x,
       max := st.max + 1 },
     2 * st.max + l % 2)

def normList (st : NormSt) (ls : List Nat) : NormSt × List Nat :=
  ls.foldl (fun acc l => ((normLit acc.1 l).1, acc.2 ++ [(normLit acc.1 l).2]))
    (st, [])

def normBuckets (st : NormSt) (bs : List (List Nat)) : NormSt × List (List Nat) :=
  bs.foldl (fun acc b => ((normList acc.1 b).1, acc.2 ++ [(normList acc.1 b).2]))
    (st, [])

/-- `normalizeVariableNames`: rename the variables of the bucket contents
to a dense 0-based range in first-seen order; `variables = max` at the
end. -/
def normalizeVariableNames (bs : List (List Nat)) : List (List Nat) × Nat :=
  ((normBuckets ⟨fun _ => none, 0⟩ bs).2, (normBuckets ⟨fun _ => none, 0⟩ bs).1.max)

/-- `readDimacsFromFile`: bucket the clauses, then (unconditionally)
normalize the variable names. -/
def readDimacsModel (raw : List (List Nat)) : List (List Nat) × Nat :=
  normalizeVariableNames (buildBuckets raw)

/-- The invariant of the renaming state: every assigned name is below the
counter. -/
def NormInv (st : NormSt) : Prop :=
  ∀ v x, st.name v = some x → x < st.max

theorem normLit_inv (st : NormSt) (l : Nat) (h : NormInv st) :
    NormInv (normLit st l).1 ∧ st.max ≤ (normLit st l).1.max ∧
      (normLit st l).2 / 2 < (normLit st l).1.max := by
  unfold normLit
  cases hn : st.name (l / 2) with
  | some m =>
    simp only []
    refine ⟨h, Nat.le_refl _, ?_⟩
    have hm : m < st.max := h _ _ hn
    have hl2 : l % 2 < 2 := Nat.mod_lt _ (by omega)
    omega
  | none =>
    simp only []
    refine ⟨?_, Nat.le_succ _, ?_⟩
    · intro v x hx
      have hx' : (if v = l / 2 then some st.max else st.name v) = some x := hx
      show x < st.max + 1
      by_cases hv : v = l / 2
      · rw [if_pos hv] at hx'
        cases hx'
        omega
      · rw [if_neg hv] at hx'
        have := h _ _ hx'
        omega
    · have hl2 : l % 2 < 2 := Nat.mod_lt _ (by omega)
      show (2 * st.max + l % 2) / 2 < st.max + 1
      omega

theorem normList_inv (ls : List Nat) :
    ∀ (st : NormSt) (acc : List Nat), NormInv st →
      (∀ l ∈ acc, l / 2 < st.max) →
      NormInv (ls.foldl
        (fun acc l => ((normLit acc.1 l).1, acc.2 ++ [(normLit acc.1 l).2]))
        (st, acc)).1 ∧
      st.max ≤ (ls.foldl
        (fun acc l => ((normLit acc.1 l).1, acc.2 ++ [(normLit acc.1 l).2]))
        (st, acc)).1.max ∧
      ∀ l ∈ (ls.foldl
        (fun acc l => ((normLit acc.1 l).1, acc.2 ++ [(normLit acc.1 l).2]))
        (st, acc)).2, l / 2 < (ls.foldl
        (fun acc l => ((normLit acc.1 l).1, acc.2 ++ [(normLit acc.1 l).2]))
        (st, acc)).1.max := by
  induction ls with
  | nil =>
    intro st acc hinv hacc
    exact ⟨hinv, Nat.le_refl _, hacc⟩
  | cons l t ih =>
    intro st acc hinv hacc
    simp only [List.foldl_cons]
    obtain ⟨h1, h2, h3⟩ := normLit_inv st l hinv
    have haccnext : ∀ x ∈ acc ++ [(normLit st l).2], x / 2 < (normLit st l).1.max := by
      intro x hx
      rcases List.mem_append.mp hx with hx | hx
      · exact Nat.lt_of_lt_of_le (hacc x hx) h2
      · have hx2 := List.mem_singleton.mp hx
        subst hx2
        exact h3
    obtain ⟨g1, g2, g3⟩ := ih (normLit st l).1 (acc ++ [(normLit st l).2]) h1 haccnext
    exact ⟨g1, Nat.le_trans h2 g2, g3⟩

theorem normBuckets_inv (bs : List (List Nat)) :
    ∀ (st : NormSt) (acc : List (List Nat)), NormInv st →
      (∀ b ∈ acc, ∀ l ∈ b, l / 2 < st.max) →
      ∀ b ∈ (bs.foldl
        (fun acc b => ((normList acc.1 b).1, acc.2 ++ [(normList acc.1 b).2]))
        (st, acc)).2, ∀ l ∈ b, l / 2 < (bs.foldl
        (fun acc b => ((normList acc.1 b).1, acc.2 ++ [(normList acc.1 b).2]))
        (st, acc)).1.max := by
  induction bs with
  | nil =>
    intro st acc hinv hacc
    exact hacc
  | cons b t ih =>
    intro st acc hinv hacc
    simp only [List.foldl_cons]
    obtain ⟨h1, h2, h3⟩ := normList_inv b st [] hinv (by intro l hl; cases hl)
    refine ih (normList st b).1 (acc ++ [(normList st b).2]) h1 ?_
    intro b' hb' l hl
    rcases List.mem_append.mp hb' with hb' | hb'
    · exact Nat.lt_of_lt_of_le (hacc b' hb' l hl) h2
    · rcases List.mem_singleton.mp hb' with rfl
      exact h3 l hl

/-- CLAIM C10: for every tokenized input, the Pointerless parser
unconditionally renames the occurring variables to a dense 0-based range,
so every literal it stores (and hence every literal yielded by clause
iteration, which slices the buckets) has index below `2·nVars()`, and the
`ColorFunction` access `colors[lit.var()]` of the WL hasher is within the
bounds of a color vector of `nVars()` entries (`var < nVars()`). -/
theorem parse_normalizes_bounds (raw : List (List Nat)) :
    ∀ b ∈ (readDimacsModel raw).1, ∀ l ∈ b,
      l < 2 * (readDimacsModel raw).2 ∧ l / 2 < (readDimacsModel raw).2 := by
  intro b hb l hl
  have h := normBuckets_inv (buildBuckets raw) ⟨fun _ => none, 0⟩ []
    (fun v x hx => by cases hx) (by intro b hb; cases hb) b hb l hl
  have hvar : l / 2 < (readDimacsModel raw).2 := h
  exact ⟨by omega, hvar⟩

/-- Witness for `parse_normalizes_bounds`: the tokenized input
`{(x1 ∨ x2), (x3)}` normalizes to 3 variables; the stored literal `4`
(originally `x2`) is in bounds. -/
theorem parse_normalizes_bounds_witness :
    ([2, 4] ∈ (readDimacsModel [[2, 4], [6]]).1) ∧ (4 ∈ ([2, 4] : List Nat)) ∧
      (4 < 2 * (readDimacsModel [[2, 4], [6]]).2 ∧
       4 / 2 < (readDimacsModel [[2, 4], [6]]).2) :=
  ⟨by decide, by decide,
   parse_normalizes_bounds [[2, 4], [6]] [2, 4] (by decide) 4 (by decide)⟩

/-! ## Claim C4: tautology and duplicate handling

`CNFFormula::readClause` (CNFFormula.h lines 409-433, the gate-analyzer
storage) sorts each incoming clause, collapses adjacent duplicate
literals, and drops the clause if two adjacent distinct literals share a
variable (a tautology). The Pointerless parser modelled above performs no
such normalization. -/

/-- The in-place compaction loop of `readClause` on the sorted literal
vector: equal adjacent literals collapse, distinct adjacent literals of
one variable abort (`return` without `push_back`). -/
def compactClause : List Nat → Option (List Nat)
  | [] => some []
  | [a] => some [a]
  | a :: b :: t =>
    if a = b then compactClause (a :: t)
    else if a / 2 = b / 2 then none
    else (compactClause (b :: t)).map (fun r => a :: r)
termination_by l => l.length

/-- `readClause`: empty clauses are stored as-is; otherwise sort and
compact (literal order is index order). `none` models the tautology early
`return` (the clause is not stored). -/
def readClauseModel (cl : List Nat) : Option (List Nat) :=
  if cl.length = 0 then some []
  else compactClause (cl.insertionSort (· ≤ ·))

theorem compactClause_none_iff :
    ∀ (s : List Nat), List.Sorted (· ≤ ·) s →
      (compactClause s = none ↔ ∃ v, 2 * v ∈ s ∧ 2 * v + 1 ∈ s) := by
  suffices H : ∀ (n : Nat) (s : List Nat), s.length ≤ n → List.Sorted (· ≤ ·) s →
      (compactClause s = none ↔ ∃ v, 2 * v ∈ s ∧ 2 * v + 1 ∈ s) by
    exact fun s hs => H s.length s (Nat.le_refl _) hs
  intro n
  induction n with
  | zero =>
    intro s hlen _
    rcases s with _ | ⟨a, t⟩
    · simp [compactClause]
    · simp at hlen
  | succ n ih =>
    intro s hlen hsorted
    rcases s with _ | ⟨a, _ | ⟨b, t⟩⟩
    · simp [compactClause]
    · simp only [compactClause]
      constructor
      · intro h
        cases h
      · rintro ⟨v, hv1, hv2⟩
        rcases List.mem_singleton.mp hv1 with rfl
        have h2 := List.mem_singleton.mp hv2
        omega
    · have hab : a ≤ b := (List.sorted_cons.mp hsorted).1 b (by simp)
      have hsort_tail : List.Sorted (· ≤ ·) (b :: t) := (List.sorted_cons.mp hsorted).2
      have hble : ∀ x ∈ t, b ≤ x := (List.sorted_cons.mp hsort_tail).1
      simp only [compactClause]
      by_cases heq : a = b
      · subst heq
        rw [if_pos rfl]
        have hsort_at : List.Sorted (· ≤ ·) (a :: t) := by
          rw [List.sorted_cons]
          exact ⟨fun x hx => Nat.le_trans hab (hble x hx),
            (List.sorted_cons.mp hsort_tail).2⟩
        rw [ih (a :: t) (by simp at hlen ⊢; omega) hsort_at]
        have hmem : ∀ x : Nat, x ∈ a :: a :: t ↔ x ∈ a :: t := by
          intro x
          simp only [List.mem_cons]
          tauto
        constructor
        · rintro ⟨v, hv1, hv2⟩
          exact ⟨v, (hmem _).mpr hv1, (hmem _).mpr hv2⟩
        · rintro ⟨v, hv1, hv2⟩
          exact ⟨v, (hmem _).mp hv1, (hmem _).mp hv2⟩
      · rw [if_neg heq]
        by_cases hvar : a / 2 = b / 2
        · rw [if_pos hvar]
          have hval : a = 2 * (a / 2) ∧ b = 2 * (a / 2) + 1 := by omega
          constructor
          · intro _
            refine ⟨a / 2, ?_, ?_⟩
            · rw [← hval.1]
              simp
            · rw [← hval.2]
              simp
          · intro _
            rfl
        · rw [if_neg hvar, Option.map_eq_none',
            ih (b :: t) (by simp at hlen ⊢; omega) hsort_tail]
          constructor
          · rintro ⟨v, hv1, hv2⟩
            exact ⟨v, List.mem_cons.mpr (Or.inr hv1), List.mem_cons.mpr (Or.inr hv2)⟩
          · rintro ⟨v, hv1, hv2⟩
            refine ⟨v, ?_, ?_⟩
            · rcases List.mem_cons.mp hv1 with h | h
              · exfalso
                rcases List.mem_cons.mp hv2 with h2 | h2
                · omega
                · rcases List.mem_cons.mp h2 with h2 | h2
                  · omega
                  · have := hble _ h2
                    omega
              · exact h
            · rcases List.mem_cons.mp hv2 with h | h
              · exfalso
                rcases List.mem_cons.mp hv1 with h2 | h2
                · omega
                · rcases List.mem_cons.mp h2 with h2 | h2
                  · omega
                  · have := hble _ h2
                    omega
              · exact h

theorem compactClause_some_spec :
    ∀ (s : List Nat), List.Sorted (· ≤ ·) s → ∀ r, compactClause s = some r →
      List.Sorted (· < ·) r ∧ (∀ x, x ∈ r ↔ x ∈ s) := by
  suffices H : ∀ (n : Nat) (s : List Nat), s.length ≤ n →
      List.Sorted (· ≤ ·) s → ∀ r, compactClause s = some r →
      List.Sorted (· < ·) r ∧ (∀ x, x ∈ r ↔ x ∈ s) by
    exact fun s hs => H s.length s (Nat.le_refl _) hs
  intro n
  induction n with
  | zero =>
    intro s hlen _ r hr
    rcases s with _ | ⟨a, t⟩
    · simp only [compactClause] at hr
      cases hr
      simp
    · simp at hlen
  | succ n ih =>
    intro s hlen hsorted r hr
    rcases s with _ | ⟨a, _ | ⟨b, t⟩⟩
    · simp only [compactClause] at hr
      cases hr
      simp
    · simp only [compactClause] at hr
      cases hr
      simp
    · have hab : a ≤ b := (List.sorted_cons.mp hsorted).1 b (by simp)
      have hsort_tail : List.Sorted (· ≤ ·) (b :: t) := (List.sorted_cons.mp hsorted).2
      have hble : ∀ x ∈ t, b ≤ x := (List.sorted_cons.mp hsort_tail).1
      simp only [compactClause] at hr
      by_cases heq : a = b
      · subst heq
        rw [if_pos rfl] at hr
        have hsort_at : List.Sorted (· ≤ ·) (a :: t) := by
          rw [List.sorted_cons]
          exact ⟨fun x hx => Nat.le_trans hab (hble x hx),
            (List.sorted_cons.mp hsort_tail).2⟩
        obtain ⟨g1, g2⟩ := ih (a :: t) (by simp at hlen ⊢; omega) hsort_at r hr
        refine ⟨g1, fun x => ?_⟩
        rw [g2 x]
        simp only [List.mem_cons]
        tauto
      · rw [if_neg heq] at hr
        by_cases hvar : a / 2 = b / 2
        · rw [if_pos hvar] at hr
          cases hr
        · rw [if_neg hvar] at hr
          rcases Option.map_eq_some'.mp hr with ⟨r', hr', rfl⟩
          obtain ⟨g1, g2⟩ := ih (b :: t) (by simp at hlen ⊢; omega) hsort_tail r' hr'
          constructor
          · rw [List.sorted_cons]
            refine ⟨fun x hx => ?_, g1⟩
            have hx2 := (g2 x).mp hx
            rcases List.mem_cons.mp hx2 with h | h
            · omega
            · have := hble _ h
              omega
          · intro x
            simp only [List.mem_cons]
            rw [g2 x]
            simp only [List.mem_cons]

theorem strictSorted_eq_of_mem_iff :
    ∀ (l1 l2 : List Nat), List.Sorted (· < ·) l1 → List.Sorted (· < ·) l2 →
      (∀ x, x ∈ l1 ↔ x ∈ l2) → l1 = l2 := by
  intro l1
  induction l1 with
  | nil =>
    intro l2 _ _ hm
    rcases l2 with _ | ⟨b, t2⟩
    · rfl
    · exact absurd ((hm b).mpr (by simp)) (by simp)
  | cons a t1 ih =>
    intro l2 h1 h2 hm
    rcases l2 with _ | ⟨b, t2⟩
    · exact absurd ((hm a).mp (by simp)) (by simp)
    · have ha1 : ∀ x ∈ t1, a < x := (List.sorted_cons.mp h1).1
      have hb2 : ∀ x ∈ t2, b < x := (List.sorted_cons.mp h2).1
      have hasb : a = b := by
        have ha : a ∈ b :: t2 := (hm a).mp (by simp)
        have hb : b ∈ a :: t1 := (hm b).mpr (by simp)
        rcases List.mem_cons.mp ha with h | h
        · exact h
        · rcases List.mem_cons.mp hb with h' | h'
          · omega
          · have := hb2 _ h
            have := ha1 _ h'
            omega
      subst hasb
      have hmt : ∀ x, x ∈ t1 ↔ x ∈ t2 := by
        intro x
        constructor
        · intro hx
          have hlt := ha1 _ hx
          rcases List.mem_cons.mp ((hm x).mp (List.mem_cons.mpr (Or.inr hx))) with h | h
          · omega
          · exact h
        · intro hx
          have hlt := hb2 _ hx
          rcases List.mem_cons.mp ((hm x).mpr (List.mem_cons.mpr (Or.inr hx))) with h | h
          · omega
          · exact h
      rw [ih t2 (List.sorted_cons.mp h1).2 (List.sorted_cons.mp h2).2 hmt]

/-- `readClauseModel` drops exactly the tautological clauses (on nonempty
input). -/
theorem readClauseModel_none_iff (cl : List Nat) (hne : cl ≠ []) :
    readClauseModel cl = none ↔ ∃ v, 2 * v ∈ cl ∧ 2 * v + 1 ∈ cl := by
  unfold readClauseModel
  rw [if_neg (by simpa using hne)]
  rw [compactClause_none_iff _ (List.sorted_insertionSort _ cl)]
  constructor
  · rintro ⟨v, hv1, hv2⟩
    exact ⟨v, (List.perm_insertionSort _ cl).mem_iff.mp hv1,
      (List.perm_insertionSort _ cl).mem_iff.mp hv2⟩
  · rintro ⟨v, hv1, hv2⟩
    exact ⟨v, (List.perm_insertionSort _ cl).mem_iff.mpr hv1,
      (List.perm_insertionSort _ cl).mem_iff.mpr hv2⟩

/-- CLAIM C4 (amended): duplicate literals collapse and tautological
clauses are dropped in `CNFFormula::readClause` — inserting a duplicate of
a literal already in the clause leaves the stored clause unchanged, and a
clause containing both polarities of some variable is not stored. (The WL
hasher's own parser, `PointerlessCNFFormula`, performs no such
normalization; see the counterexample.) -/
theorem readClause_normalizes (cl : List Nat) (l : Nat) (hmem : l ∈ cl) :
    readClauseModel (l :: cl) = readClauseModel cl ∧
    (negL l ∈ cl → readClauseModel cl = none) := by
  have hne : cl ≠ [] := by
    intro h
    rw [h] at hmem
    cases hmem
  have hmemiff : ∀ x, x ∈ l :: cl ↔ x ∈ cl := by
    intro x
    simp only [List.mem_cons]
    constructor
    · rintro (rfl | h)
      · exact hmem
      · exact h
    · exact Or.inr
  constructor
  · by_cases htaut : ∃ v, 2 * v ∈ cl ∧ 2 * v + 1 ∈ cl
    · have h1 : readClauseModel cl = none := (readClauseModel_none_iff cl hne).mpr htaut
      have h2 : readClauseModel (l :: cl) = none := by
        rw [readClauseModel_none_iff (l :: cl) (by simp)]
        obtain ⟨v, hv1, hv2⟩ := htaut
        exact ⟨v, (hmemiff _).mpr hv1, (hmemiff _).mpr hv2⟩
      rw [h1, h2]
    · have h1 : readClauseModel cl ≠ none := fun h =>
        htaut ((readClauseModel_none_iff cl hne).mp h)
      have h2 : readClauseModel (l :: cl) ≠ none := by
        intro h
        obtain ⟨v, hv1, hv2⟩ := (readClauseModel_none_iff (l :: cl) (by simp)).mp h
        exact htaut ⟨v, (hmemiff _).mp hv1, (hmemiff _).mp hv2⟩
      rcases hr1 : readClauseModel cl with _ | r1
      · exact absurd hr1 h1
      rcases hr2 : readClauseModel (l :: cl) with _ | r2
      · exact absurd hr2 h2
      have hlen1 : ¬ cl.length = 0 := by simpa using hne
      have hlen2 : ¬ (l :: cl).length = 0 := by simp
      unfold readClauseModel at hr1 hr2
      rw [if_neg hlen1] at hr1
      rw [if_neg hlen2] at hr2
      obtain ⟨s1, m1⟩ := compactClause_some_spec _
        (List.sorted_insertionSort _ cl) r1 hr1
      obtain ⟨s2, m2⟩ := compactClause_some_spec _
        (List.sorted_insertionSort _ (l :: cl)) r2 hr2
      have : r2 = r1 := by
        apply strictSorted_eq_of_mem_iff r2 r1 s2 s1
        intro x
        rw [m1 x, m2 x, (List.perm_insertionSort _ cl).mem_iff,
          (List.perm_insertionSort _ (l :: cl)).mem_iff, hmemiff x]
      rw [this]
  · intro hneg
    rw [readClauseModel_none_iff cl hne]
    refine ⟨l / 2, ?_, ?_⟩
    · by_cases hp : l % 2 = 0
      · rw [show 2 * (l / 2) = l by omega]
        exact hmem
      · rw [show 2 * (l / 2) = negL l by unfold negL; rw [if_neg hp]; omega]
        exact hneg
    · by_cases hp : l % 2 = 0
      · rw [show 2 * (l / 2) + 1 = negL l by unfold negL; rw [if_pos hp]; omega]
        exact hneg
      · rw [show 2 * (l / 2) + 1 = l by omega]
        exact hmem

/-- Witness for `readClause_normalizes`: duplicating the literal `0` in the
tautological clause `{x0, ¬x0, x1}` (indices `[0, 1, 2]`). -/
theorem readClause_normalizes_witness :
    (0 ∈ ([0, 1, 2] : List Nat)) ∧
    (readClauseModel (0 :: [0, 1, 2]) = readClauseModel [0, 1, 2] ∧
     (negL 0 ∈ ([0, 1, 2] : List Nat) → readClauseModel [0, 1, 2] = none)) :=
  ⟨by decide, readClause_normalizes [0, 1, 2] 0 (by decide)⟩

/-- The demo configuration with `depth = 2` (one refinement step, then the
even-parity variable hash). -/
def pDemo2 : WLParams := { pDemo with depth := 2 }

/-- CLAIM C4 counterexample: the WL hasher's own parser
(`PointerlessCNFFormula::readDimacsFromFile`) keeps tautological clauses —
parsing `{(x1)}` gives one clause but parsing `{(x1), (x1 ∨ ¬x1)}` keeps
the tautology as a second clause — and the WL hash of the two parses
differs (at the concrete demo configuration and hash stand-ins), refuting
"inserting a tautological clause does not change wlHash(F)". -/
theorem wl_tautology_counterexample :
    readDimacsModel [[2]] = ([[], [0]], 1) ∧
    readDimacsModel [[2], [2, 3]] = ([[], [0], [0, 1]], 1) ∧
    wlHash pDemo2 ⟨1, [[0], [0, 1]]⟩ ≠ wlHash pDemo2 ⟨1, [[0]]⟩ :=
  ⟨by decide, by decide, by decide⟩

/-! ## The gate recognizer (`GateAnalyzer.h`, `GateFormula.h`)

Clauses are lists of literal indices. The occurrence index is a total
function from literal index to its clause list; `isBlockedSet` and
`remove` live in `OccurrenceList.h` / `BlockList.h`, which are not under
`src/`, and are modelled from the spec (sections 3 and 4.2). The semantic
check `fSemantic` calls an external incremental SAT oracle and is an
abstract `Bool`-valued parameter. -/

/-- The tail worker of `dedupAdj`: drop elements equal to the previously
kept one. -/
def dedupAdjAux (prev : Nat) : List Nat → List Nat
  | [] => []
  | b :: t => if prev = b then dedupAdjAux prev t else b :: dedupAdjAux b t

/-- `std::unique` + `erase` on a vector: collapse adjacent equal
elements. -/
def dedupAdj : List Nat → List Nat
  | [] => []
  | a :: t => a :: dedupAdjAux a t

theorem dedupAdjAux_subset (x : Nat) :
    ∀ (t : List Nat) (p : Nat), x ∈ dedupAdjAux p t → x ∈ t := by
  intro t
  induction t with
  | nil =>
    intro p h
    cases h
  | cons b t ih =>
    intro p h
    unfold dedupAdjAux at h
    split_ifs at h with hpb
    · exact List.mem_cons.mpr (Or.inr (ih p h))
    · rcases List.mem_cons.mp h with rfl | h
      · exact List.mem_cons.mpr (Or.inl rfl)
      · exact List.mem_cons.mpr (Or.inr (ih b h))

theorem dedupAdjAux_cover (x : Nat) :
    ∀ (t : List Nat) (p : Nat), x ∈ t → x = p ∨ x ∈ dedupAdjAux p t := by
  intro t
  induction t with
  | nil =>
    intro p h
    cases h
  | cons b t ih =>
    intro p h
    unfold dedupAdjAux
    rcases List.mem_cons.mp h with rfl | h
    · by_cases hpb : p = x
      · exact Or.inl hpb.symm
      · rw [if_neg hpb]
        exact Or.inr (List.mem_cons.mpr (Or.inl rfl))
    · by_cases hpb : p = b
      · rw [if_pos hpb]
        exact ih p h
      · rw [if_neg hpb]
        rcases ih b h with rfl | hin
        · exact Or.inr (List.mem_cons.mpr (Or.inl rfl))
        · exact Or.inr (List.mem_cons.mpr (Or.inr hin))

theorem dedupAdj_mem (l : List Nat) (x : Nat) : x ∈ dedupAdj l ↔ x ∈ l := by
  rcases l with _ | ⟨a, t⟩
  · simp [dedupAdj]
  · unfold dedupAdj
    constructor
    · intro h
      rcases List.mem_cons.mp h with rfl | h
      · exact List.mem_cons.mpr (Or.inl rfl)
      · exact List.mem_cons.mpr (Or.inr (dedupAdjAux_subset x t a h))
    · intro h
      rcases List.mem_cons.mp h with rfl | h
      · exact List.mem_cons.mpr (Or.inl rfl)
      · rcases dedupAdjAux_cover x t a h with rfl | hin
        · exact List.mem_cons.mpr (Or.inl rfl)
        · exact List.mem_cons.mpr (Or.inr hin)

theorem dedupAdjAux_strictSorted :
    ∀ (t : List Nat) (p : Nat), List.Sorted (· ≤ ·) t → (∀ x ∈ t, p ≤ x) →
      List.Sorted (· < ·) (dedupAdjAux p t) ∧
        (∀ x ∈ dedupAdjAux p t, p < x) := by
  intro t
  induction t with
  | nil =>
    intro p _ _
    exact ⟨List.sorted_nil, fun x hx => absurd hx (List.not_mem_nil x)⟩
  | cons b t ih =>
    intro p hsorted hge
    have hpb : p ≤ b := hge b (List.mem_cons.mpr (Or.inl rfl))
    have hbt : ∀ x ∈ t, b ≤ x := (List.sorted_cons.mp hsorted).1
    have htl : List.Sorted (· ≤ ·) t := (List.sorted_cons.mp hsorted).2
    unfold dedupAdjAux
    split_ifs with heq
    · subst heq
      exact ih p htl hbt
    · obtain ⟨ih1, ih2⟩ := ih b htl hbt
      have hplt : p < b := Nat.lt_of_le_of_ne hpb heq
      constructor
      · rw [List.sorted_cons]
        exact ⟨ih2, ih1⟩
      · intro x hx
        rcases List.mem_cons.mp hx with rfl | hx
        · exact hplt
        · exact Nat.lt_trans hplt (ih2 x hx)

theorem dedupAdj_strictSorted (l : List Nat) (hs : List.Sorted (· ≤ ·) l) :
    List.Sorted (· < ·) (dedupAdj l) := by
  rcases l with _ | ⟨a, t⟩
  · exact List.sorted_nil
  · unfold dedupAdj
    obtain ⟨h1, h2⟩ := dedupAdjAux_strictSorted t a
      (List.sorted_cons.mp hs).2 (List.sorted_cons.mp hs).1
    rw [List.sorted_cons]
    exact ⟨h2, h1⟩

/-- Total-function update (used for occurrence lists, input bits, gate
tables and visited stamps). -/
def updFn (f : Nat → α) (x : Nat) (v : α) : Nat → α :=
  fun y => if y = x then v else f y

/-- The `Gate` record; `out = none` models `lit_Undef` (`isDefined`). -/
structure GateRec where
  out : Option Nat
  fwd : List (List Nat)
  bwd : List (List Nat)
  notMono : Bool
  inp : List Nat

def emptyGate : GateRec := ⟨none, [], [], false, []⟩

/-- The `GateFormula` store: root clauses, the `usedAsInput` bit per
literal, one gate record per variable, and the remainder. -/
structure GateFormulaM where
  roots : List (List Nat)
  inputs : Nat → Bool
  gates : Nat → GateRec
  remainder : List (List Nat)

def setUsedAsInput (gf : GateFormulaM) (l : Nat) : GateFormulaM :=
  { gf with inputs := updFn gf.inputs l true }

/-- `isNestedMonotonic`: not both polarities used as input. -/
def isNestedMonotonic (gf : GateFormulaM) (l : Nat) : Bool :=
  !(gf.inputs l && gf.inputs (negL l))

/-- One step of the input-marking loop of `addGate`. -/
def markStep (nm : Bool) (gf : GateFormulaM) (l : Nat) : GateFormulaM :=
  let gf' := setUsedAsInput gf l
  if nm then setUsedAsInput gf' (negL l) else gf'

/-- The input list collected by `addGate`: the literals of the `fwd`
clauses other than `¬o`, pushed after any previous `gate.inp` content,
then sorted and deduplicated (`std::sort` + `std::unique`). -/
def gateInputs (gf : GateFormulaM) (o : Nat) (fwd : List (List Nat)) : List Nat :=
  dedupAdj ((fwd.foldl (fun acc c => acc ++ c.filter (fun l => l ≠ negL o))
    ((gf.gates (o / 2)).inp)).insertionSort (· ≤ ·))

/-- The gate record stored by `addGate` for `var(o)`. -/
def newGateRec (gf : GateFormulaM) (o : Nat) (fwd bwd : List (List Nat)) : GateRec :=
  { out := some o, fwd := (gf.gates (o / 2)).fwd ++ fwd,
    bwd := (gf.gates (o / 2)).bwd ++ bwd,
    notMono := !isNestedMonotonic gf o,
    inp := gateInputs gf o fwd }

/-- `GateFormula::addGate` (GateFormula.h lines 74-89): append `fwd`/`bwd`
to the gate of `var(o)`, record non-monotonicity, collect, sort and
`unique` the inputs, then mark them (and, for non-monotonic gates, their
negations) as used. -/
def addGate (gf : GateFormulaM) (o : Nat) (fwd bwd : List (List Nat)) :
    GateFormulaM :=
  (newGateRec gf o fwd bwd).inp.foldl (markStep (newGateRec gf o fwd bwd).notMono)
    { gf with gates := updFn gf.gates (o / 2) (newGateRec gf o fwd bwd) }

/-- Modelled from the spec: `OccurrenceList.h` is not under `src/`. The
blocked-set resolution condition of section 3: some variable other than
`var(o)` occurs with opposite signs in `c` and `d`. -/
def resolvesTautOther (o : Nat) (c d : List Nat) : Bool :=
  c.any (fun x => decide (x / 2 ≠ o / 2 ∧ negL x ∈ d))

/-- Modelled from the spec: `isBlockedSet(o)` holds iff every pair
`(c ∈ occ(¬o), d ∈ occ(o))` resolves to a tautology on a variable other
than `var(o)`. -/
def isBlockedSet (idx : Nat → List (List Nat)) (o : Nat) : Bool :=
  (idx (negL o)).all (fun c => (idx o).all (fun d => resolvesTautOther o c d))

/-- Modelled from the spec: `remove(v)` deletes every clause mentioning
variable `v` from every occurrence list. -/
def removeVar (idx : Nat → List (List Nat)) (v : Nat) :
    Nat → List (List Nat) :=
  fun l => (idx l).filter (fun c => decide (∀ x ∈ c, x / 2 ≠ v))

/-- `fixedClauseSize`. -/
def fixedClauseSize (f : List (List Nat)) (n : Nat) : Bool :=
  f.all (fun c => c.length = n)

/-- The input-variable set `{var(l) : l ∈ some clause of f, l ≠ x}`
(`std::set<Var>` built by `fPattern`). -/
def inpVars (x : Nat) (f : List (List Nat)) : Finset Nat :=
  f.foldl (fun s c => c.foldl (fun s l => if l ≠ x then insert (l / 2) s else s) s) ∅

/-- The input-literal set `{l : l ∈ some clause of f, l ≠ x}`. -/
def inpLits (x : Nat) (f : List (List Nat)) : Finset Nat :=
  f.foldl (fun s c => c.foldl (fun s l => if l ≠ x then insert l s else s) s) ∅

/-- `GateAnalyzer::fPattern` (GateAnalyzer.h lines 149-177). The
floating-point `pow(2, fwd_inp.size()/2)` is exact in this range and is
modelled as `2 ^ (fwd_inp.card / 2)` — note the integer-halved exponent,
exactly as in the source. -/
def fPattern (o : Nat) (fwd bwd : List (List Nat)) : Bool :=
  let fwdInp := inpVars (negL o) fwd
  let bwdInp := inpVars o bwd
  if fwdInp ≠ bwdInp then false
  else if fwd.length = 1 ∧ bwd.length = 1 ∧ (fwd.headD []).length = 2
      ∧ (bwd.headD []).length = 2 then true
  else if fwd.length = 1 ∧ fixedClauseSize bwd 2 = true then true
  else if bwd.length = 1 ∧ fixedClauseSize fwd 2 = true then true
  else if fwd.length = bwd.length ∧ 2 * fwd.length = 2 ^ (fwdInp.card / 2) then
    decide (2 * fwdInp.card = (inpLits (negL o) fwd).card)
  else false

/-- The gate-analyzer state visible to `isGate`: the partial gate formula
and the occurrence index. -/
structure AnState where
  gf : GateFormulaM
  index : Nat → List (List Nat)

/-- `GateAnalyzer::isGate` (GateAnalyzer.h lines 132-145), with the
semantic check `fSemantic` (an external SAT-oracle probe) abstracted as
`oracle`. Returns the success flag and the updated state. -/
def isGate (oracle : Nat → List (List Nat) → List (List Nat) → Bool)
    (st : AnState) (o : Nat) (pat sem : Bool) : Bool × AnState :=
  if 0 < (st.index (negL o)).length ∧ isBlockedSet st.index o = true then
    if isNestedMonotonic st.gf o = true
        ∨ (pat = true ∧ fPattern o (st.index (negL o)) (st.index o) = true)
        ∨ (sem = true ∧ oracle o (st.index (negL o)) (st.index o) = true) then
      (true, ⟨addGate st.gf o (st.index (negL o)) (st.index o),
              removeVar st.index (o / 2)⟩)
    else (false, st)
  else (false, st)

theorem updFn_same (f : Nat → α) (x : Nat) (v : α) : updFn f x v x = v := by
  unfold updFn
  rw [if_pos rfl]

theorem updFn_other (f : Nat → α) (x y : Nat) (v : α) (h : y ≠ x) :
    updFn f x v y = f y := by
  unfold updFn
  rw [if_neg h]

/-- CLAIM C5 (amended): `isGate(o)` succeeds iff `occ(¬o)` — the clauses
that will form `fwd` — is non-empty, `isBlockedSet(o)` holds, and the
monotonicity test, the pattern test (when enabled) or the semantic test
(when enabled) passes; on failure the gate formula and the occurrence
index are unchanged. (The claim as stated requires `occ(o)` non-empty;
the source checks `index[~out]`.) -/
theorem isGate_success_iff (oracle : Nat → List (List Nat) → List (List Nat) → Bool)
    (st : AnState) (o : Nat) (pat sem : Bool) :
    ((isGate oracle st o pat sem).1 = true ↔
      (st.index (negL o) ≠ [] ∧ isBlockedSet st.index o = true ∧
        (isNestedMonotonic st.gf o = true
          ∨ (pat = true ∧ fPattern o (st.index (negL o)) (st.index o) = true)
          ∨ (sem = true ∧ oracle o (st.index (negL o)) (st.index o) = true)))) ∧
    ((isGate oracle st o pat sem).1 = false → (isGate oracle st o pat sem).2 = st) := by
  unfold isGate
  split_ifs with h1 h2
  · constructor
    · constructor
      · intro _
        exact ⟨List.length_pos.mp h1.1, h1.2, h2⟩
      · intro _
        rfl
    · intro hcontra
      simp at hcontra
  · constructor
    · constructor
      · intro hcontra
        simp at hcontra
      · rintro ⟨_, _, h3⟩
        exact absurd h3 h2
    · intro _
      rfl
  · constructor
    · constructor
      · intro hcontra
        simp at hcontra
      · rintro ⟨hne, hbl, _⟩
        exact absurd ⟨List.length_pos.mpr hne, hbl⟩ h1
    · intro _
      rfl

/-- Shared concrete fixtures for the gate-analyzer evaluations. -/
def cexOracle : Nat → List (List Nat) → List (List Nat) → Bool :=
  fun _ _ _ => false

def cexGF : GateFormulaM := ⟨[], fun _ => false, fun _ => emptyGate, []⟩

/-- Occurrence index of the one-clause formula `{(¬x0)}`. -/
def cexIndex : Nat → List (List Nat) := fun l => if l = 1 then [[1]] else []

/-- CLAIM C5 counterexample: on the formula `{(¬x0)}`, `occ(x0)` is empty
yet `isGate(x0)` succeeds (the source requires `occ(¬x0)` non-empty, not
`occ(x0)`; the blocked-set check is vacuous and the candidate is
monotonic) — refuting "succeeds only if occ(o) is non-empty". -/
theorem isGate_occ_counterexample :
    (isGate cexOracle ⟨cexGF, cexIndex⟩ 0 true true).1 = true ∧
      cexIndex 0 = [] :=
  ⟨by decide, by decide⟩

theorem markStep_gates (nm : Bool) (gf : GateFormulaM) (l : Nat) :
    (markStep nm gf l).gates = gf.gates := by
  unfold markStep setUsedAsInput
  split_ifs <;> rfl

theorem markStep_mono (nm : Bool) (gf : GateFormulaM) (l x : Nat)
    (h : gf.inputs x = true) : (markStep nm gf l).inputs x = true := by
  unfold markStep setUsedAsInput
  by_cases hnm : nm = true
  · rw [if_pos hnm]
    show updFn (updFn gf.inputs l true) (negL l) true x = true
    unfold updFn
    split_ifs <;> first | rfl | exact h
  · rw [if_neg hnm]
    show updFn gf.inputs l true x = true
    unfold updFn
    split_ifs <;> first | rfl | exact h

theorem markStep_sets (nm : Bool) (gf : GateFormulaM) (l : Nat) :
    (markStep nm gf l).inputs l = true ∧
      (nm = true → (markStep nm gf l).inputs (negL l) = true) := by
  have hne : l ≠ negL l := by
    unfold negL
    split_ifs <;> omega
  unfold markStep setUsedAsInput
  by_cases hnm : nm = true
  · rw [if_pos hnm]
    constructor
    · show updFn (updFn gf.inputs l true) (negL l) true l = true
      rw [updFn_other _ _ _ _ hne, updFn_same]
    · intro _
      show updFn (updFn gf.inputs l true) (negL l) true (negL l) = true
      rw [updFn_same]
  · rw [if_neg hnm]
    refine ⟨?_, fun hc => absurd hc hnm⟩
    show updFn gf.inputs l true l = true
    rw [updFn_same]

theorem markFold_spec (nm : Bool) :
    ∀ (ls : List Nat) (gf : GateFormulaM),
    (∀ x, gf.inputs x = true → (ls.foldl (markStep nm) gf).inputs x = true) ∧
    (∀ l ∈ ls, (ls.foldl (markStep nm) gf).inputs l = true ∧
      (nm = true → (ls.foldl (markStep nm) gf).inputs (negL l) = true)) ∧
    (ls.foldl (markStep nm) gf).gates = gf.gates := by
  intro ls
  induction ls with
  | nil =>
    intro gf
    exact ⟨fun x hx => hx, fun l hl => absurd hl (List.not_mem_nil l), rfl⟩
  | cons l t ih =>
    intro gf
    simp only [List.foldl_cons]
    obtain ⟨g1, g2, g3⟩ := ih (markStep nm gf l)
    refine ⟨fun x hx => g1 x (markStep_mono nm gf l x hx), ?_, ?_⟩
    · intro l2 hl2
      rcases List.mem_cons.mp hl2 with rfl | hl2
      · obtain ⟨hs1, hs2⟩ := markStep_sets nm gf l2
        exact ⟨g1 _ hs1, fun hnm => g1 _ (hs2 hnm)⟩
      · exact g2 l2 hl2
    · rw [g3, markStep_gates]

theorem addGate_spec (gf : GateFormulaM) (o : Nat) (fwd bwd : List (List Nat)) :
    (addGate gf o fwd bwd).gates (o / 2) = newGateRec gf o fwd bwd ∧
    List.Sorted (· ≤ ·) (newGateRec gf o fwd bwd).inp ∧
    (newGateRec gf o fwd bwd).inp.Nodup ∧
    (∀ l ∈ (newGateRec gf o fwd bwd).inp, (addGate gf o fwd bwd).inputs l = true) ∧
    ((newGateRec gf o fwd bwd).notMono = true →
      ∀ l ∈ (newGateRec gf o fwd bwd).inp,
        (addGate gf o fwd bwd).inputs (negL l) = true) := by
  obtain ⟨m1, m2, m3⟩ := markFold_spec (newGateRec gf o fwd bwd).notMono
    (newGateRec gf o fwd bwd).inp
    { gf with gates := updFn gf.gates (o / 2) (newGateRec gf o fwd bwd) }
  have hstrict : List.Sorted (· < ·) (newGateRec gf o fwd bwd).inp := by
    show List.Sorted (· < ·) (gateInputs gf o fwd)
    exact dedupAdj_strictSorted _ (List.sorted_insertionSort _ _)
  refine ⟨?_, hstrict.imp (fun h => le_of_lt h), hstrict.imp (fun h => ne_of_lt h),
    fun l hl => (m2 l hl).1, fun hnm l hl => (m2 l hl).2 hnm⟩
  show ((newGateRec gf o fwd bwd).inp.foldl (markStep (newGateRec gf o fwd bwd).notMono)
    { gf with gates := updFn gf.gates (o / 2) (newGateRec gf o fwd bwd) }).gates (o / 2)
    = newGateRec gf o fwd bwd
  rw [m3]
  exact updFn_same _ _ _

theorem removeVar_spec (idx : Nat → List (List Nat)) (v lit : Nat) :
    ∀ c ∈ removeVar idx v lit, ∀ x ∈ c, x / 2 ≠ v := by
  intro c hc x hx
  have hmem := List.mem_filter.mp hc
  exact of_decide_eq_true hmem.2 x hx

theorem isGate_success_state (oracle : Nat → List (List Nat) → List (List Nat) → Bool)
    (st : AnState) (o : Nat) (pat sem : Bool)
    (h : (isGate oracle st o pat sem).1 = true) :
    (isGate oracle st o pat sem).2 =
      ⟨addGate st.gf o (st.index (negL o)) (st.index o),
       removeVar st.index (o / 2)⟩ := by
  unfold isGate at h ⊢
  split_ifs at h ⊢
  rfl

/-- CLAIM C6: after a successful `isGate` (which performs `addGate` and
`index.remove(var(o))`), the stored gate's `inp` list is sorted and
duplicate-free, `usedAsInput(l)` holds for every input `l`, also for `¬l`
when the gate is non-monotonic, and no clause mentioning `var(o)` remains
anywhere in the occurrence index. -/
theorem addGate_postconditions (oracle : Nat → List (List Nat) → List (List Nat) → Bool)
    (st : AnState) (o : Nat) (pat sem : Bool)
    (h : (isGate oracle st o pat sem).1 = true) :
    List.Sorted (· ≤ ·) (((isGate oracle st o pat sem).2.gf.gates (o / 2)).inp) ∧
    (((isGate oracle st o pat sem).2.gf.gates (o / 2)).inp).Nodup ∧
    (∀ l ∈ ((isGate oracle st o pat sem).2.gf.gates (o / 2)).inp,
      (isGate oracle st o pat sem).2.gf.inputs l = true) ∧
    (((isGate oracle st o pat sem).2.gf.gates (o / 2)).notMono = true →
      ∀ l ∈ ((isGate oracle st o pat sem).2.gf.gates (o / 2)).inp,
        (isGate oracle st o pat sem).2.gf.inputs (negL l) = true) ∧
    (∀ lit : Nat, ∀ c ∈ (isGate oracle st o pat sem).2.index lit,
      ∀ x ∈ c, x / 2 ≠ o / 2) := by
  rw [isGate_success_state oracle st o pat sem h]
  show List.Sorted (· ≤ ·) ((addGate st.gf o (st.index (negL o)) (st.index o)).gates (o / 2)).inp
    ∧ ((addGate st.gf o (st.index (negL o)) (st.index o)).gates (o / 2)).inp.Nodup
    ∧ (∀ l ∈ ((addGate st.gf o (st.index (negL o)) (st.index o)).gates (o / 2)).inp,
        (addGate st.gf o (st.index (negL o)) (st.index o)).inputs l = true)
    ∧ (((addGate st.gf o (st.index (negL o)) (st.index o)).gates (o / 2)).notMono = true →
        ∀ l ∈ ((addGate st.gf o (st.index (negL o)) (st.index o)).gates (o / 2)).inp,
          (addGate st.gf o (st.index (negL o)) (st.index o)).inputs (negL l) = true)
    ∧ (∀ lit : Nat, ∀ c ∈ removeVar st.index (o / 2) lit, ∀ x ∈ c, x / 2 ≠ o / 2)
  obtain ⟨hg, hsort, hnodup, hmark, hmarkneg⟩ :=
    addGate_spec st.gf o (st.index (negL o)) (st.index o)
  rw [hg]
  exact ⟨hsort, hnodup, hmark, hmarkneg, fun lit => removeVar_spec st.index (o / 2) lit⟩

/-- Occurrence index of the one-clause formula `{(¬x0 ∨ x1)}`, a concrete
successful monotonic gate recognition for `x0`. -/
def cexIndex2 : Nat → List (List Nat) := fun l => if l = 1 then [[1, 2]] else []

/-- Witness for `addGate_postconditions` at the concrete state with the
clause `(¬x0 ∨ x1)` and candidate output `x0`. -/
theorem addGate_postconditions_witness :
    (isGate cexOracle ⟨cexGF, cexIndex2⟩ 0 false false).1 = true ∧
    (List.Sorted (· ≤ ·) (((isGate cexOracle ⟨cexGF, cexIndex2⟩ 0 false false).2.gf.gates (0 / 2)).inp) ∧
     (((isGate cexOracle ⟨cexGF, cexIndex2⟩ 0 false false).2.gf.gates (0 / 2)).inp).Nodup ∧
     (∀ l ∈ ((isGate cexOracle ⟨cexGF, cexIndex2⟩ 0 false false).2.gf.gates (0 / 2)).inp,
       (isGate cexOracle ⟨cexGF, cexIndex2⟩ 0 false false).2.gf.inputs l = true) ∧
     (((isGate cexOracle ⟨cexGF, cexIndex2⟩ 0 false false).2.gf.gates (0 / 2)).notMono = true →
       ∀ l ∈ ((isGate cexOracle ⟨cexGF, cexIndex2⟩ 0 false false).2.gf.gates (0 / 2)).inp,
         (isGate cexOracle ⟨cexGF, cexIndex2⟩ 0 false false).2.gf.inputs (negL l) = true) ∧
     (∀ lit : Nat, ∀ c ∈ (isGate cexOracle ⟨cexGF, cexIndex2⟩ 0 false false).2.index lit,
       ∀ x ∈ c, x / 2 ≠ 0 / 2)) :=
  ⟨by decide,
   addGate_postconditions cexOracle ⟨cexGF, cexIndex2⟩ 0 false false (by decide)⟩

/-- The spec's wording of the full DNF/CNF-encoding acceptance (claim C7):
`|fwd| = |bwd| = 2^(k-1)` with `k = |I⁺|`, and the literals of `fwd`
excluding `¬o` are exactly both polarities of every input variable.
(This definition follows the spec's words, for comparison with the
source's `fPattern`.) -/
def fPatternFullSpec (o : Nat) (fwd bwd : List (List Nat)) : Prop :=
  fwd.length = 2 ^ ((inpVars (negL o) fwd).card - 1) ∧
  bwd.length = 2 ^ ((inpVars (negL o) fwd).card - 1) ∧
  inpLits (negL o) fwd
    = (inpVars (negL o) fwd).image (fun v => 2 * v)
      ∪ (inpVars (negL o) fwd).image (fun v => 2 * v + 1)

/-- CLAIM C7 divergence, evaluated: the XOR-style full encoding of
`x0 = x1 ⊕ x2` (`fwd = {(¬x0 ∨ a ∨ b), (¬x0 ∨ ¬a ∨ ¬b)}`,
`bwd = {(x0 ∨ a ∨ ¬b), (x0 ∨ ¬a ∨ b)}`; `k = 2`,
`|fwd| = |bwd| = 2 = 2^(k-1)`, all four input polarities present, and
`I⁺ = I⁻`) satisfies the claim's acceptance condition, but the source's
`fPattern` rejects it: its clause-count test reads `2·|fwd| = 2^(k/2)`
(integer-halved exponent) instead of the `2^k`-clauses rule stated in the
code's own comment. -/
theorem fPattern_full_encoding_divergence :
    fPattern 0 [[1, 2, 4], [1, 3, 5]] [[0, 2, 5], [0, 3, 4]] = false ∧
    fPatternFullSpec 0 [[1, 2, 4], [1, 3, 5]] [[0, 2, 5], [0, 3, 4]] :=
  ⟨by decide, by unfold fPatternFullSpec; exact ⟨by decide, by decide, by decide⟩⟩


/-! ## Claim C8: `GateFormula::getPrunedProblem` (GateFormula.h 152-183) -/

/-- `getRootLiterals`: concatenate the root clauses, sort, `unique`. -/
def getRootLiterals (gf : GateFormulaM) : List Nat :=
  dedupAdj ((gf.roots.foldl (fun acc c => acc ++ c) []).insertionSort (· ≤ ·))

/-- The traversal loop of `getPrunedProblem`. The literal stack is kept
top-first (the vector's `back()` is the list head; pushing `gate.inp` at
`end()` makes the last input the new top). The source's
`std::copy(gate.fwd.begin(), gate.fwd.end(), result.end())` (and the
`bwd` copy) writes past the vector's end without growing it — undefined
behaviour (flagged by the spec's design notes); its effect on the
vector's defined contents is nil, so the model leaves `result` unchanged
at those two statements. The while loop is modelled with explicit fuel. -/
def prunedLoop (gf : GateFormulaM) (model : Nat → Bool) :
    Nat → List Nat → (Nat → Bool) → List (List Nat) → List (List Nat)
  | 0, _, _, res => res
  | _ + 1, [], _, res => res
  | fuel + 1, o :: rest, visited, res =>
    if (gf.gates (o / 2)).out.isSome then
      if !visited (o / 2) && ((gf.gates (o / 2)).notMono || model o) then
        prunedLoop gf model fuel ((gf.gates (o / 2)).inp.reverse ++ rest)
          (updFn visited (o / 2) true) res
      else prunedLoop gf model fuel rest visited res
    else prunedLoop gf model fuel rest visited res

/-- `getPrunedProblem(model)`: result starts as the root clauses, the
traversal adds nothing to the defined contents (see `prunedLoop`), and the
remainder is appended at the end. -/
def getPrunedProblem (gf : GateFormulaM) (model : Nat → Bool) (fuel : Nat) :
    List (List Nat) :=
  prunedLoop gf model fuel (getRootLiterals gf).reverse (fun _ => false) gf.roots
    ++ gf.remainder

/-- The gate formula of the recognized AND-ish gate `x0 ↔ x1` with root
clause `(x0)`, gate `fwd = {(¬x0 ∨ x1)}`, and remainder `{(x2)}`. -/
def c8GF : GateFormulaM :=
  { roots := [[0]],
    inputs := fun _ => false,
    gates := updFn (fun _ => emptyGate) 0 ⟨some 0, [[1, 2]], [], false, [2]⟩,
    remainder := [[4]] }

/-- CLAIM C8, evaluated at a failing input: under the all-true model the
root gate `x0` is satisfied and visited, yet its `fwd` clause
`(¬x0 ∨ x1)` (literals `[1, 2]`) never reaches the result — the copy to
`result.end()` does not grow the vector — so `getPrunedProblem` returns
exactly `roots ++ remainder`, while the claim requires the satisfied
gate's `fwd` clauses to be emitted. -/
theorem getPrunedProblem_drops_gate_clauses :
    getPrunedProblem c8GF (fun _ => true) 10 = [[0], [4]] ∧
      [1, 2] ∉ getPrunedProblem c8GF (fun _ => true) 10 :=
  ⟨by decide, by decide⟩

end Gbdc
